import Mathlib

/-! Verification development for the apx-lens browser extension.  The file
embeds the core of the tool-calling orchestration loop from
src/background.js (result truncation, context compression, backend retry
and fallback, loop detection, approval gate, round budget) and of the
content script (redirect unwrapping, text-extraction ladder), and proves
or refutes the testable properties stated in the design specification.
Remote services (the generation backend, the live page, the user) are
modelled as oracles supplied as explicit function parameters. -/

namespace ApxLens

/-- JSON-like runtime values as passed around by the tool handlers in
src/background.js.  The constructor `func` stands for a JavaScript
function value and `null` stands for both null and undefined. -/
inductive JVal where
  | null
  | bool (b : Bool)
  | num (n : Int)
  | str (s : String)
  | arr (elems : List JVal)
  | obj (fields : List (String × JVal))
  | func

/-- Truncation limits, the options object of truncateDeep
(src/background.js line 870).  Defaults mirror the source defaults. -/
structure TruncCfg where
  maxChars : Nat := 1500
  maxArray : Nat := 50
  maxKeys : Nat := 50
deriving Repr, DecidableEq

/-- Marker appended to an over-long string by truncateDeep. -/
def strMarker (cut : Nat) : String :=
  "… [truncated " ++ toString cut ++ " chars]"

/-- Marker pushed onto an over-long array by truncateDeep. -/
def arrMarker (cut : Nat) : String :=
  "… [" ++ toString cut ++ " more items truncated]"

/-- Marker value stored under the key __truncated__ by truncateDeep. -/
def objMarker (cut : Nat) : String :=
  "… [" ++ toString cut ++ " more keys truncated]"

/-- String truncation branch of truncateDeep: slice to maxChars and append
a marker stating how many characters were cut. -/
def truncStr (cfg : TruncCfg) (s : String) : String :=
  if s.length > cfg.maxChars then
    s.take cfg.maxChars ++ strMarker (s.length - cfg.maxChars)
  else s

/-- JavaScript-style property assignment on an ordered field list: replace
the value in place when the key exists, append otherwise (models the
statement out.__truncated__ = ... in truncateDeep). -/
def setKey (l : List (String × JVal)) (k : String) (v : JVal) :
    List (String × JVal) :=
  if l.any (fun p => p.1 = k) then
    l.map (fun p => if p.1 = k then (k, v) else p)
  else l ++ [(k, v)]

mutual
/-- Embedding of truncateDeep (src/background.js lines 870-896) on acyclic,
unshared values; the seen-set of the source only matters for object graphs
with sharing or cycles, which are treated separately by the heap model
below.  The slice-then-map of the source is fused into one recursion. -/
def truncateDeep (cfg : TruncCfg) : JVal → JVal
  | .null => .null
  | .bool b => .bool b
  | .num n => .num n
  | .str s => .str (truncStr cfg s)
  | .func => .str "[function]"
  | .arr l =>
      let out := truncTake cfg cfg.maxArray l
      .arr (if l.length > cfg.maxArray then
              out ++ [.str (arrMarker (l.length - cfg.maxArray))]
            else out)
  | .obj kvs =>
      let out := truncTakeKV cfg cfg.maxKeys kvs
      .obj (if kvs.length > cfg.maxKeys then
              setKey out "__truncated__"
                (.str (objMarker (kvs.length - cfg.maxKeys)))
            else out)

/-- Slice of the first n array items, each recursively truncated. -/
def truncTake (cfg : TruncCfg) : Nat → List JVal → List JVal
  | _, [] => []
  | 0, _ :: _ => []
  | n + 1, x :: xs => truncateDeep cfg x :: truncTake cfg n xs

/-- Slice of the first n object entries, each value recursively truncated. -/
def truncTakeKV (cfg : TruncCfg) :
    Nat → List (String × JVal) → List (String × JVal)
  | _, [] => []
  | 0, _ :: _ => []
  | n + 1, (k, v) :: xs => (k, truncateDeep cfg v) :: truncTakeKV cfg n xs
end

mutual
/-- All string values occurring in a value (object keys excluded, matching
the source, which never rewrites keys). -/
def stringsOf : JVal → List String
  | .str s => [s]
  | .arr l => stringsOfList l
  | .obj kvs => stringsOfKVs kvs
  | _ => []

/-- String values of a list of values. -/
def stringsOfList : List JVal → List String
  | [] => []
  | x :: xs => stringsOf x ++ stringsOfList xs

/-- String values of an object field list. -/
def stringsOfKVs : List (String × JVal) → List String
  | [] => []
  | (_, v) :: xs => stringsOf v ++ stringsOfKVs xs
end

mutual
/-- All array element lists occurring in a value, the value itself
included when it is an array. -/
def arraysOf : JVal → List (List JVal)
  | .arr l => l :: arraysOfList l
  | .obj kvs => arraysOfKVs kvs
  | _ => []

/-- Array element lists occurring in a list of values. -/
def arraysOfList : List JVal → List (List JVal)
  | [] => []
  | x :: xs => arraysOf x ++ arraysOfList xs

/-- Array element lists occurring in an object field list. -/
def arraysOfKVs : List (String × JVal) → List (List JVal)
  | [] => []
  | (_, v) :: xs => arraysOf v ++ arraysOfKVs xs
end

mutual
/-- All object field lists occurring in a value, itself included when it
is an object. -/
def objectsOf : JVal → List (List (String × JVal))
  | .arr l => objectsOfList l
  | .obj kvs => kvs :: objectsOfKVs kvs
  | _ => []

/-- Object field lists occurring in a list of values. -/
def objectsOfList : List JVal → List (List (String × JVal))
  | [] => []
  | x :: xs => objectsOf x ++ objectsOfList xs

/-- Object field lists occurring in an object field list. -/
def objectsOfKVs : List (String × JVal) → List (List (String × JVal))
  | [] => []
  | (_, v) :: xs => objectsOf v ++ objectsOfKVs xs
end

/-- Shape of every string value that truncateDeep can emit: an untouched
string within the character limit, a maxChars-prefix followed by a marker
stating exactly how many characters were cut, the function placeholder, or
an array or key elision marker. -/
def StrOutShape (cfg : TruncCfg) (s : String) : Prop :=
  s.length ≤ cfg.maxChars
  ∨ (∃ s0 : String, cfg.maxChars < s0.length ∧
      s = s0.take cfg.maxChars ++ strMarker (s0.length - cfg.maxChars))
  ∨ s = "[function]"
  ∨ (∃ k, s = arrMarker k)
  ∨ (∃ k, s = objMarker k)

mutual
/-- Checker for values already inside every truncation limit and free of
function values; truncateDeep leaves exactly these unchanged. -/
def withinLimits (cfg : TruncCfg) : JVal → Bool
  | .null => true
  | .bool _ => true
  | .num _ => true
  | .str s => s.length ≤ cfg.maxChars
  | .func => false
  | .arr l => decide (l.length ≤ cfg.maxArray) && withinLimitsList cfg l
  | .obj kvs => decide (kvs.length ≤ cfg.maxKeys) && withinLimitsKVs cfg kvs

/-- List version of withinLimits. -/
def withinLimitsList (cfg : TruncCfg) : List JVal → Bool
  | [] => true
  | x :: xs => withinLimits cfg x && withinLimitsList cfg xs

/-- Field-list version of withinLimits. -/
def withinLimitsKVs (cfg : TruncCfg) : List (String × JVal) → Bool
  | [] => true
  | (_, v) :: xs => withinLimits cfg v && withinLimitsKVs cfg xs
end

/-- String length of a value when it is a string, zero otherwise (used to
observe outputs of truncateDeep without an equality test on values). -/
def strLenOf : JVal → Nat
  | .str s => s.length
  | _ => 0

/-- Minimal JSON string escaping (backslash, quote, newline); enough to
mirror JSON.stringify on the payloads this extension handles. -/
def jsonEscape (s : String) : String :=
  String.mk (s.toList.foldr (fun c acc =>
    if c = '"' then '\\' :: '"' :: acc
    else if c = '\\' then '\\' :: '\\' :: acc
    else if c = '\n' then '\\' :: 'n' :: acc
    else c :: acc) [])

mutual
/-- JSON serialisation of a value, modelling JSON.stringify as used to
build tool-call signatures; a bare function value serialises to the
placeholder text undefined (it cannot occur in parsed tool arguments). -/
def jsonOfVal : JVal → String
  | .null => "null"
  | .bool b => if b then "true" else "false"
  | .num n => toString n
  | .str s => "\"" ++ jsonEscape s ++ "\""
  | .func => "undefined"
  | .arr l => "[" ++ jsonOfList l ++ "]"
  | .obj kvs => "\x7b" ++ jsonOfKVs kvs ++ "\x7d"

/-- Comma-joined serialisation of array elements. -/
def jsonOfList : List JVal → String
  | [] => ""
  | [x] => jsonOfVal x
  | x :: y :: xs => jsonOfVal x ++ "," ++ jsonOfList (y :: xs)

/-- Comma-joined serialisation of object entries. -/
def jsonOfKVs : List (String × JVal) → String
  | [] => ""
  | [(k, v)] => "\"" ++ jsonEscape k ++ "\":" ++ jsonOfVal v
  | (k, v) :: p :: xs =>
      "\"" ++ jsonEscape k ++ "\":" ++ jsonOfVal v ++ "," ++ jsonOfKVs (p :: xs)
end

/-! Conversation contents, character budgeting and compression
(src/background.js lines 824-832, 856-863, 920-982). -/

/-- One part of a Gemini content entry: plain text, a model-issued
function call, or a function response sent back to the model. -/
inductive Part where
  | text (s : String)
  | functionCall (name : String) (args : JVal)
  | functionResponse (name : String) (resp : JVal)

/-- One role-tagged content entry of the conversation. -/
structure Content where
  role : String
  parts : List Part

/-- A chat message as received from the side panel. -/
structure ChatMessage where
  role : String
  content : String

/-- Embedding of buildContentsFromMessages: assistant messages become
model-role entries, everything else user-role, one text part each.  The
optional system instruction is threaded separately by the loop and does
not enter the character estimate, so it is omitted here. -/
def buildContents (messages : List ChatMessage) : List Content :=
  messages.map (fun m =>
    ⟨if m.role = "assistant" then "model" else "user", [.text m.content]⟩)

/-- Character length contributed by one part: only text parts count,
matching the typeof check in estimateContentChars. -/
def partChars : Part → Nat
  | .text s => s.length
  | _ => 0

/-- Embedding of estimateContentChars: total characters of all text parts. -/
def estimateContentChars (contents : List Content) : Nat :=
  (contents.map (fun c => (c.parts.map partChars).sum)).sum

/-- Inner loop of trimContents: walks the conversation from the newest
entry backwards (the argument list is the reversed conversation),
prepending entries to the kept suffix and stopping, with the offending
entry removed again, as soon as the estimate exceeds the budget. -/
def trimGo (maxChars : Nat) : List Content → List Content → List Content
  | [], kept => kept
  | c :: rest, kept =>
      let kept' := c :: kept
      if estimateContentChars kept' > maxChars then kept
      else trimGo maxChars rest kept'

/-- Embedding of trimContents (src/background.js lines 929-941): keep the
most recent entries while staying under the character budget. -/
def trimContents (contents : List Content) (maxChars : Nat) : List Content :=
  if estimateContentChars contents ≤ maxChars then contents
  else trimGo maxChars contents.reverse []

/-- Embedding of summarizeHistoryText with the backend reply abstracted as
an oracle: whatever text the summarisation model call returns is sliced to
1200 characters. -/
def summarizeHistoryText (oracle : List Content → String)
    (headContents : List Content) : String :=
  (oracle headContents).take 1200

/-- Content entry carrying the compressed-summary digest, labelled exactly
as in compressIfNeeded. -/
def summaryContent (summary : String) : Content :=
  ⟨"user", [.text ("Conversation summary (compressed):\n" ++ summary)]⟩

/-- While-loop of compressIfNeeded: with the current tail count, summarise
the head into a digest and keep the tail; retry with two fewer retained
turns while the result still exceeds the budget, falling back to
trimContents when the tail count reaches two. -/
def compressGo (oracle : List Content → String) (contents : List Content)
    (maxChars : Nat) : Nat → List Content
  | 0 => trimContents contents maxChars
  | 1 => trimContents contents maxChars
  | 2 => trimContents contents maxChars
  | tc + 3 =>
      let headContents := contents.take (contents.length - (tc + 3))
      let tail := contents.drop (contents.length - (tc + 3))
      let newContents :=
        summaryContent (summarizeHistoryText oracle headContents) :: tail
      if estimateContentChars newContents ≤ maxChars then newContents
      else compressGo oracle contents maxChars (tc + 1)

/-- Embedding of compressIfNeeded (src/background.js lines 966-982). -/
def compressIfNeeded (oracle : List Content → String)
    (contents : List Content) (maxChars : Nat) : List Content :=
  if estimateContentChars contents ≤ maxChars then contents
  else compressGo oracle contents maxChars (min contents.length 8)

/-! Model session driver: generateWithToolsLoop (src/background.js lines
1041-1210) with the remote backend, the page and the user modelled as
oracles that may answer differently at every interaction point. -/

/-- A structured tool-call request extracted from a model candidate. -/
structure ToolCall where
  name : String
  args : JVal

/-- Embedding of getFunctionCallsFromCandidate on an optional candidate
content (the candidate may be absent from the backend reply). -/
def getFunctionCalls : Option Content → List ToolCall
  | none => []
  | some c => c.parts.filterMap (fun p =>
      match p with
      | .functionCall n a => some ⟨n, a⟩
      | _ => none)

/-- Embedding of extractTextFromCandidate: concatenation of text parts. -/
def extractTextFromCandidate : Option Content → String
  | none => ""
  | some c => (c.parts.map (fun p =>
      match p with
      | .text s => s
      | _ => "")).foldl (fun a b => a ++ b) ""

/-- Embedding of makeFunctionResponseParts: each tool result is deeply
truncated with limits 2000 characters, 30 items, 30 keys before being
wrapped in a function response part. -/
def makeFunctionResponseParts (results : List (String × JVal)) : List Part :=
  results.map (fun r =>
    .functionResponse r.1 (truncateDeep ⟨2000, 30, 30⟩ r.2))

/-- Signature of a requested call set, mirroring
JSON.stringify(calls.map(c => (name and args of c))). -/
def callSignature (calls : List ToolCall) : String :=
  jsonOfVal (.arr (calls.map (fun c =>
    .obj [("name", .str c.name), ("args", c.args)])))

/-- First-occurrence deduplication with the set of already-kept entries
accumulated, modelling Array.from over a Set. -/
def dedupFirstAux (kept : List String) : List String → List String
  | [] => []
  | x :: xs =>
      if x ∈ kept then dedupFirstAux kept xs
      else x :: dedupFirstAux (x :: kept) xs

/-- First-occurrence deduplication, modelling Array.from over a Set. -/
def dedupFirst (l : List String) : List String := dedupFirstAux [] l

/-- Configuration consumed by the loop: preferred model, round budget and
the auto-approve flag (global STATE in the source). -/
structure LoopConfig where
  preferred : String := "gemini-2.5-flash-lite"
  maxToolRounds : Nat := 8
  autoApprove : Bool := true

/-- Ordered backend fallback list: the preferred model followed by the two
hard-coded fallbacks, first occurrences kept. -/
def fallbackList (cfg : LoopConfig) : List String :=
  dedupFirst [cfg.preferred, "gemini-2.5-flash", "gemini-1.5-flash"]

/-- Request payload as far as the claims observe it: the conversation
contents and whether the tool declaration catalog is attached.  The
generation parameters and the system instruction never influence the
control flow modelled here and are omitted. -/
structure GenBody where
  contents : List Content
  withTools : Bool

/-- Outcome of one fetchWithRetry invocation as seen by the loop: the
promise rejected (network errors exhausted the retries), a non-ok
response came back, or an ok response with an optional first candidate. -/
inductive FetchOutcome where
  | threw
  | httpResp (status : Nat) (body : String)
  | ok (candidate : Option Content)

/-- Oracles for everything outside the driver.  Each interaction point of
a run consults a distinct argument tuple, so any environment behaviour
along a trace is representable. -/
structure LoopEnv where
  fetch : Nat → String → GenBody → FetchOutcome
  forcedFetch : Nat → String → GenBody → Option (Option Content)
  finalFetch : String → GenBody → Option (Option Content)
  approval : Nat → Option Bool
  execTool : Nat → Nat → ToolCall → Int → JVal
  summaryOracle : List Content → String

/-- Result of the per-round backend selection loop. -/
inductive ModelSel where
  | chosen (mdl : String) (candidate : Option Content)
  | failed (err : String)
  | exhausted

/-- Per-round backend fallback (the inner for-loop over fallbackList): a
network throw or an HTTP 500 moves on to the next model, any other non-ok
status returns an error immediately, an ok response is used. -/
def selectModel (env : LoopEnv) (round : Nat) (body : GenBody) :
    List String → ModelSel
  | [] => .exhausted
  | m :: ms =>
      match env.fetch round m body with
      | .threw => selectModel env round body ms
      | .httpResp status b =>
          if status = 500 then selectModel env round body ms
          else .failed ("API error " ++ toString status ++ ": " ++ b)
      | .ok c => .chosen m c

/-- First backend whose forced-final (no-tools) call succeeds. -/
def firstForced (env : LoopEnv) (round : Nat) (body : GenBody) :
    List String → Option (Option Content)
  | [] => none
  | m :: ms =>
      match env.forcedFetch round m body with
      | some c => some c
      | none => firstForced env round body ms

/-- First backend whose post-loop final (no-tools) call succeeds. -/
def firstFinal (env : LoopEnv) (body : GenBody) :
    List String → Option (Option Content)
  | [] => none
  | m :: ms =>
      match env.finalFetch m body with
      | some c => some c
      | none => firstFinal env body ms

/-- Embedding of requestToolApproval (src/background.js lines 1002-1012):
the first component is the boolean returned to the loop, the second
records whether an approval request was presented to the user.  A missing
user reply models the 30 second wait timing out, which fails closed. -/
def requestToolApproval (cfg : LoopConfig) (env : LoopEnv) (round : Nat) :
    Bool × Bool :=
  if cfg.autoApprove then (true, false)
  else
    match env.approval round with
    | some b => (b, true)
    | none => (false, true)

/-- JavaScript truthiness of a value. -/
def jTruthy : JVal → Bool
  | .null => false
  | .bool b => b
  | .num n => n ≠ 0
  | .str s => s ≠ ""
  | _ => true

/-- First field with the given key, when the value is an object. -/
def lookupKey (v : JVal) (k : String) : Option JVal :=
  match v with
  | .obj kvs => (kvs.find? (fun p => p.1 = k)).map (fun p => p.2)
  | _ => none

/-- Active-surface reassignment after one tool result: a truthy newTabId
or switchedTabId field replaces the current tab id (numeric ids only; the
tools of this extension report numeric ids). -/
def nextTabId (current : Int) (result : JVal) : Int :=
  let nt := (lookupKey result "newTabId").getD .null
  let st := (lookupKey result "switchedTabId").getD .null
  if jTruthy nt || jTruthy st then
    match (if jTruthy nt then nt else st) with
    | .num n => n
    | _ => current
  else current

/-- Strictly sequential execution of the requested calls: the result of
call i updates the active tab id before call i+1 runs. -/
def execCalls (env : LoopEnv) (round : Nat) :
    Nat → Int → List ToolCall → List (String × JVal) × Int
  | _, tabId, [] => ([], tabId)
  | i, tabId, c :: rest =>
      let r := env.execTool round i c tabId
      let (others, tabId') := execCalls env round (i + 1) (nextTabId tabId r) rest
      ((c.name, r) :: others, tabId')

/-- Tool names recognised as part of the expected search workflow
(src/background.js lines 1110-1112). -/
def workflowTools : List String :=
  ["searchWeb", "getSearchResults", "clickSearchResultByDomain",
   "extractText", "waitForSelector"]

/-- A call set counts as a legitimate workflow when any requested call is
a recognised workflow tool. -/
def isLegitimateWorkflow (calls : List ToolCall) : Bool :=
  calls.any (fun c => workflowTools.contains c.name)

/-- Repeat threshold: 4 for workflow call sets, 2 otherwise. -/
def repeatThreshold (calls : List ToolCall) : Nat :=
  if isLegitimateWorkflow calls then 4 else 2

/-- Repeat-counter update (src/background.js lines 1114-1119): a
non-empty call set whose signature equals the stored one increments the
counter; anything else resets it to zero and stores the new signature. -/
def updateRepeat (calls : List ToolCall) (lastSig : Option String)
    (rc : Nat) : Nat × Option String :=
  if calls.length > 0 ∧ lastSig = some (callSignature calls) then
    (rc + 1, lastSig)
  else (0, some (callSignature calls))

/-- Instruction pushed before a forced no-tools round. -/
def stopToolsContent : Content :=
  ⟨"user", [.text
    "Stop calling tools. Provide the final answer concisely based on the gathered data."]⟩

/-- Error text when the user declines the requested actions. -/
def declinedError : String := "User declined requested actions."

/-- Error text when every backend fails for a round. -/
def allFailedError : String :=
  "All model attempts failed (500 or network). Please retry shortly."

/-- Error text when the round budget is exhausted and the final no-tools
call fails everywhere. -/
def exceededError : String := "Tool loop exceeded max rounds"

/-- Driver state carried between rounds. -/
structure LoopState where
  contents : List Content
  lastSig : Option String
  repeatCount : Nat
  tabId : Int

/-- Instrumentation of a run: number of tool-executing rounds, every call
actually executed, the rounds in which a forced no-tools call was issued
together with its request body, and the contents of the post-loop final
call when one was made. -/
structure RunStats where
  toolRounds : Nat
  executed : List ToolCall
  forcedRounds : List Nat
  forcedBodies : List GenBody
  finalContents : Option (List Content)

/-- Fresh instrumentation record. -/
def RunStats.init : RunStats := ⟨0, [], [], [], none⟩

/-- Session outcome: a final answer text or a user-visible error. -/
inductive LoopResult where
  | answer (text : String)
  | failure (errorMsg : String)

/-- Outcome of one round: the session finished, or the loop continues
with an updated state. -/
inductive RoundOut where
  | finished (res : LoopResult) (stats : RunStats)
  | nextRound (st : LoopState) (stats : RunStats)

/-- Instrumentation carried by a round outcome. -/
def RoundOut.stats : RoundOut → RunStats
  | .finished _ s => s
  | .nextRound _ s => s

/-- Tail of a round after the repeat check (src/background.js lines
1154-1180): an empty call set ends the session with the candidate text;
otherwise the approval gate runs, a decline ends the round with the
declined error before any execution, and approved calls execute
sequentially, their truncated responses folded into the contents. -/
def afterRepeatCheck (cfg : LoopConfig) (env : LoopEnv) (round : Nat)
    (st : LoopState) (stats : RunStats) (cand : Option Content)
    (calls : List ToolCall) : RoundOut :=
  if calls.length = 0 then
    .finished (.answer (extractTextFromCandidate cand)) stats
  else
    let approved := (requestToolApproval cfg env round).1
    if approved = false then .finished (.failure declinedError) stats
    else
      let er := execCalls env round 0 st.tabId calls
      let candContent := cand.getD ⟨"model", []⟩
      let contents' := st.contents ++
        [candContent, ⟨"user", makeFunctionResponseParts er.1⟩]
      .nextRound ⟨contents', st.lastSig, st.repeatCount, er.2⟩
        { stats with
            toolRounds := stats.toolRounds + 1
            executed := stats.executed ++ calls }

/-- One round of the loop body (src/background.js lines 1060-1181):
compress the contents, call the backend through the fallback list, update
the repeat counter, force a no-tools final answer on a threshold breach
(falling back into the round when every backend fails), then interpret
the call set. -/
def roundStep (cfg : LoopConfig) (env : LoopEnv) (round : Nat)
    (st : LoopState) (stats : RunStats) : RoundOut :=
  let contents := compressIfNeeded env.summaryOracle st.contents 10000
  match selectModel env round ⟨contents, true⟩ (fallbackList cfg) with
  | .failed e => .finished (.failure e) stats
  | .exhausted => .finished (.failure allFailedError) stats
  | .chosen _ cand =>
      let calls := getFunctionCalls cand
      let rs := updateRepeat calls st.lastSig st.repeatCount
      let candContent := cand.getD ⟨"model", []⟩
      if rs.1 ≥ repeatThreshold calls then
        let contents2 := contents ++ [candContent, stopToolsContent]
        let body2 : GenBody := ⟨contents2, false⟩
        let stats2 := { stats with
          forcedRounds := stats.forcedRounds ++ [round]
          forcedBodies := stats.forcedBodies ++ [body2] }
        match firstForced env round body2 (fallbackList cfg) with
        | some c => .finished (.answer (extractTextFromCandidate c)) stats2
        | none =>
            afterRepeatCheck cfg env round ⟨contents2, rs.2, rs.1, st.tabId⟩
              stats2 cand calls
      else
        afterRepeatCheck cfg env round ⟨contents, rs.2, rs.1, st.tabId⟩
          stats cand calls

/-- Post-loop final phase (src/background.js lines 1183-1209): one
no-tools call falling through the backend list; only when every backend
fails does the session end with the exceeded-rounds error. -/
def finalPhase (cfg : LoopConfig) (env : LoopEnv) (st : LoopState)
    (stats : RunStats) : LoopResult × RunStats :=
  let stats' := { stats with finalContents := some st.contents }
  match firstFinal env ⟨st.contents, false⟩ (fallbackList cfg) with
  | some c => (.answer (extractTextFromCandidate c), stats')
  | none => (.failure exceededError, stats')

/-- Round loop with the remaining round budget as fuel. -/
def loopAux (cfg : LoopConfig) (env : LoopEnv) :
    Nat → Nat → LoopState → RunStats → LoopResult × RunStats
  | 0, _, st, stats => finalPhase cfg env st stats
  | fuel + 1, round, st, stats =>
      match roundStep cfg env round st stats with
      | .finished r s => (r, s)
      | .nextRound st' s => loopAux cfg env fuel (round + 1) st' s

/-- Embedding of generateWithToolsLoop: run at most maxToolRounds rounds
from the initial conversation, then attempt the final no-tools answer. -/
def generateWithToolsLoop (cfg : LoopConfig) (env : LoopEnv)
    (messages : List ChatMessage) (tabId : Int) : LoopResult × RunStats :=
  loopAux cfg env cfg.maxToolRounds 0
    ⟨buildContents messages, none, 0, tabId⟩ RunStats.init

/-! Retry with backoff: fetchWithRetry (src/background.js lines
1015-1039).  Wall-clock sleeping and Math.random are modelled by
recording each computed delay and reading jitter from an oracle. -/

/-- Answer of one raw fetch attempt: the promise rejected (network
error) or a response with the given HTTP status arrived. -/
inductive NetAns where
  | threw
  | resp (status : Nat)

/-- Oracles for the raw fetch: per-attempt answers and jitter values. -/
structure RetryEnv where
  answer : Nat → NetAns
  jitter : Nat → ℚ

/-- Response.ok of the fetch API: status in the 200 range. -/
def isOkStatus (s : Nat) : Bool := decide (200 ≤ s) && decide (s < 300)

/-- Statuses the source classifies as transient. -/
def isTransientStatus (s : Nat) : Bool := s = 500 || s = 503 || s = 504

/-- An attempt answer that triggers a retry: a network error or a
non-ok transient status. -/
def transientAns : NetAns → Bool
  | .threw => true
  | .resp s => !isOkStatus s && isTransientStatus s

/-- Outcome of fetchWithRetry: a response was returned to the caller
(with this status) or the promise rejected with the stored error. -/
inductive FetchRetResult where
  | returned (status : Nat)
  | netError

/-- Instrumentation of a fetchWithRetry run: raw attempts made and the
backoff delays slept between them. -/
structure RetryTrace where
  attempts : Nat
  delays : List ℚ

/-- Backoff delay before retrying attempt number a. -/
def backoffDelay (base : Nat) (env : RetryEnv) (a : Nat) : ℚ :=
  ((base * 2 ^ a : Nat) : ℚ) + env.jitter a

/-- While-loop of fetchWithRetry, fuelled by the remaining permitted
attempts.  When the fuel runs out (attempt = retries + 1) the source
either rethrows a stored network error or performs one last bare fetch
whose response is returned whatever its status. -/
def fwrAux (env : RetryEnv) (base : Nat) :
    Nat → Nat → Bool → List ℚ → FetchRetResult × RetryTrace
  | 0, attempt, lastErr, delays =>
      if lastErr then (.netError, ⟨attempt, delays⟩)
      else
        match env.answer attempt with
        | .threw => (.netError, ⟨attempt + 1, delays⟩)
        | .resp s => (.returned s, ⟨attempt + 1, delays⟩)
  | fuel + 1, attempt, lastErr, delays =>
      match env.answer attempt with
      | .threw =>
          fwrAux env base fuel (attempt + 1) true
            (delays ++ [backoffDelay base env attempt])
      | .resp s =>
          if isOkStatus s then (.returned s, ⟨attempt + 1, delays⟩)
          else if isTransientStatus s then
            fwrAux env base fuel (attempt + 1) lastErr
              (delays ++ [backoffDelay base env attempt])
          else (.returned s, ⟨attempt + 1, delays⟩)

/-- Embedding of fetchWithRetry. -/
def fetchWithRetry (env : RetryEnv) (retries base : Nat) :
    FetchRetResult × RetryTrace :=
  fwrAux env base (retries + 1) 0 false []

/-! Redirect unwrapping: decodeGoogleRedirect (content script lines
76-98) over a byte-level model of the WHATWG URL fragment it uses. -/

/-- Whitespace predicate of the JavaScript string trim operations. -/
def isSpaceChar (c : Char) : Bool :=
  c = ' ' || c = '\t' || c = '\n' || c = '\r'

/-- JavaScript String.prototype.trim: strip whitespace at both ends. -/
def trimChars (s : String) : String :=
  String.mk (((s.toList.dropWhile isSpaceChar).reverse.dropWhile
    isSpaceChar).reverse)

/-- ASCII lower-casing, modelling toLowerCase on the ASCII hostnames and
navigation lines this extension handles. -/
def toLowerStr (s : String) : String :=
  String.mk (s.toList.map (fun c =>
    if 'A' ≤ c ∧ c ≤ 'Z' then Char.ofNat (c.toNat + 32) else c))

/-- Split a character list at every occurrence of the separator. -/
def splitChar (sep : Char) : List Char → List (List Char)
  | [] => [[]]
  | c :: rest =>
      let r := splitChar sep rest
      if c = sep then [] :: r
      else
        match r with
        | [] => [[c]]
        | g :: gs => (c :: g) :: gs

/-- Join character lists with a separator character. -/
def joinCharLists (sep : Char) : List (List Char) → List Char
  | [] => []
  | [x] => x
  | x :: y :: xs => x ++ sep :: joinCharLists sep (y :: xs)

/-- Join strings with a separator string. -/
def joinSep (sep : String) : List String → String
  | [] => ""
  | [x] => x
  | x :: y :: xs => x ++ sep ++ joinSep sep (y :: xs)

/-- Hexadecimal digit value. -/
def hexVal (c : Char) : Option Nat :=
  if '0' ≤ c ∧ c ≤ '9' then some (c.toNat - '0'.toNat)
  else if 'a' ≤ c ∧ c ≤ 'f' then some (c.toNat - 'a'.toNat + 10)
  else if 'A' ≤ c ∧ c ≤ 'F' then some (c.toNat - 'A'.toNat + 10)
  else none

/-- Lenient percent-decoding as performed by URLSearchParams: valid
percent escapes are decoded byte-wise, invalid ones pass through.
Multi-byte UTF-8 sequences are modelled as individual code points. -/
def percentDecodeLenient : List Char → List Char
  | [] => []
  | '%' :: h1 :: h2 :: rest =>
      match hexVal h1, hexVal h2 with
      | some a, some b => Char.ofNat (16 * a + b) :: percentDecodeLenient rest
      | _, _ => '%' :: percentDecodeLenient (h1 :: h2 :: rest)
  | c :: rest => c :: percentDecodeLenient rest

/-- Strict percent-decoding as performed by decodeURIComponent: an
invalid escape raises URIError, modelled as none. -/
def percentDecodeStrict : List Char → Option (List Char)
  | [] => some []
  | '%' :: h1 :: h2 :: rest =>
      match hexVal h1, hexVal h2 with
      | some a, some b =>
          (percentDecodeStrict rest).map (Char.ofNat (16 * a + b) :: ·)
      | _, _ => none
  | '%' :: _ :: [] => none
  | '%' :: [] => none
  | c :: rest => (percentDecodeStrict rest).map (c :: ·)

/-- Plus signs decode to spaces in the query string. -/
def plusToSpace (l : List Char) : List Char :=
  l.map (fun c => if c = '+' then ' ' else c)

/-- Query-parameter lookup modelling URLSearchParams.get: the first
pair with this raw name, its value plus-decoded then percent-decoded. -/
def getSearchParam (query : String) (key : String) : Option String :=
  ((splitChar '&' query.toList).map (fun pair =>
      match splitChar '=' pair with
      | [] => (("" : String), ([] : List Char))
      | [n] => (String.mk n, [])
      | n :: vs => (String.mk n, joinCharLists '=' vs))).findSome?
    (fun p =>
      if p.1 = key then
        some (String.mk (percentDecodeLenient (plusToSpace p.2)))
      else none)

/-- Parsed absolute URL, reduced to the fields the source reads. -/
structure UrlParts where
  scheme : String
  host : String
  path : String
  query : String
deriving DecidableEq

/-- Substring test on strings (String.prototype.includes). -/
def hasSubstr (pat s : String) : Bool :=
  (List.range (s.length + 1)).any
    (fun i => pat.toList.isPrefixOf (s.toList.drop i))

/-- Parser for absolute URLs, modelling the fragment of the WHATWG URL
parser the source relies on: scheme up to the first colon followed by two
slashes, hostname lower-cased and cut at the first port colon, path up to
the query or fragment (defaulting to a single slash), query up to the
fragment.  Relative references resolve against the page URL in the
browser and are out of scope here; they parse to none. -/
def parseAbsUrl (s : String) : Option UrlParts :=
  let cs := s.toList
  match cs.findIdx? (fun c => c = ':') with
  | none => none
  | some i =>
      let scheme := String.mk (cs.take i)
      let rest := cs.drop (i + 1)
      if scheme = "" then none
      else if rest.take 2 ≠ ['/', '/'] then none
      else
        let afterSlashes := rest.drop 2
        let hostLen :=
          (afterSlashes.findIdx? (fun c => c = '/' ∨ c = '?' ∨ c = '#')).getD
            afterSlashes.length
        let hostRaw := afterSlashes.take hostLen
        let afterHost := afterSlashes.drop hostLen
        if hostRaw = [] then none
        else
          let host := toLowerStr (String.mk (hostRaw.takeWhile
            (fun c => c ≠ ':')))
          let beforeFrag :=
            afterHost.take ((afterHost.findIdx? (fun c => c = '#')).getD
              afterHost.length)
          let pathLen :=
            (beforeFrag.findIdx? (fun c => c = '?')).getD beforeFrag.length
          let path := beforeFrag.take pathLen
          let query := (beforeFrag.drop pathLen).drop 1
          some ⟨scheme, host, if path = [] then "/" else String.mk path,
                String.mk query⟩

/-- First of the given query parameters that is present with a truthy
(non-empty) value, matching the for-of loop over q, url, u. -/
def firstTruthyParam (u : UrlParts) : List String → Option String
  | [] => none
  | k :: ks =>
      match getSearchParam u.query k with
      | some v => if v ≠ "" then some v else firstTruthyParam u ks
      | none => firstTruthyParam u ks

/-- Google-redirect pattern of decodeGoogleRedirect: hostname containing
the text google. (or equal to www.google.com) with path /url. -/
def googlePattern (u : UrlParts) : Bool :=
  (hasSubstr "google." u.host || u.host = "www.google.com") &&
    u.path = "/url"

/-- Bing-redirect pattern: hostname containing bing.com with path /aclk
or /ck/a. -/
def bingPattern (u : UrlParts) : Bool :=
  hasSubstr "bing.com" u.host && (u.path = "/aclk" || u.path = "/ck/a")

/-- DuckDuckGo-redirect pattern: hostname containing duckduckgo.com with
a path starting /l. -/
def ddgPattern (u : UrlParts) : Bool :=
  hasSubstr "duckduckgo.com" u.host && "/l".toList.isPrefixOf u.path.toList

/-- Truthy u parameter for the Bing branch. -/
def bingParam (u : UrlParts) : Option String :=
  match getSearchParam u.query "u" with
  | some v => if v ≠ "" then some v else none
  | none => none

/-- Embedding of decodeGoogleRedirect (content script lines 76-98).  The
three host checks run in order exactly as in the source: a URL matching
the Google pattern yields the first truthy of q, url, u; one matching the
Bing pattern yields the u parameter; one matching the DuckDuckGo pattern
yields the uddg parameter decoded once more, a decoding failure being
caught and returning the input.  Anything else, including an unparseable
href, returns the input. -/
def decodeGoogleRedirect (href : String) : String :=
  match parseAbsUrl href with
  | none => href
  | some u =>
      match (if googlePattern u then firstTruthyParam u ["q", "url", "u"]
             else none) with
      | some v => v
      | none =>
          match (if bingPattern u then bingParam u else none) with
          | some v => v
          | none =>
              if ddgPattern u then
                match getSearchParam u.query "uddg" with
                | some v =>
                    if v ≠ "" then
                      match percentDecodeStrict v.toList with
                      | some d => String.mk d
                      | none => href
                    else href
                | none => href
              else href

/-! Text-extraction strategy ladder: one pass of the extractText tool of
the content script (lines 364-714), scroll disabled so the do-while body
runs exactly once.  The DOM is abstracted into the candidate texts each
strategy would read from it. -/

/-- Candidate texts the page offers to each extraction strategy. -/
structure ExtractEnv where
  selectorText : String
  semanticTexts : List String
  aggregateText : String
  dynamicTexts : List String
  shadowText : String
  appText : String
  bodyText : String

/-- First candidate that is non-empty and strictly longer than the
current best (the break-on-adoption loops of strategies 2). -/
def findFirstLongerNonempty (cands : List String) (cur : String) : String :=
  match cands.find? (fun t => t ≠ "" && decide (cur.length < t.length)) with
  | some t => t
  | none => cur

/-- First candidate strictly longer than the current best (the
break-on-adoption loop of strategy 4, which checks only the length). -/
def findFirstLonger (cands : List String) (cur : String) : String :=
  match cands.find? (fun t => decide (cur.length < t.length)) with
  | some t => t
  | none => cur

/-- Strategies 1 and 2: a provided selector yields its joined text,
otherwise the semantic containers are probed in order. -/
def extractStep12 (env : ExtractEnv) (selector : Option String) : String :=
  match selector with
  | some _ => env.selectorText
  | none => findFirstLongerNonempty env.semanticTexts ""

/-- Strategy 3 (comprehensive fallback): adopt the aggregated content
text when it is non-empty and strictly longer, under the 300-character
guard. -/
def extractStep3 (env : ExtractEnv) (cur : String) : String :=
  if cur = "" ∨ cur.length < 300 then
    if env.aggregateText ≠ "" ∧ cur.length < env.aggregateText.length then
      env.aggregateText
    else cur
  else cur

/-- Strategy 4 (dynamic-content selectors): first strictly longer
candidate wins, under the 200-character guard. -/
def extractStep4 (env : ExtractEnv) (cur : String) : String :=
  if cur = "" ∨ cur.length < 200 then findFirstLonger env.dynamicTexts cur
  else cur

/-- Strategy 5 (shadow DOM and same-origin iframes): adopt the trimmed
concatenation when strictly longer, under the 200-character guard. -/
def extractStep5 (env : ExtractEnv) (cur : String) : String :=
  if cur = "" ∨ cur.length < 200 then
    if cur.length < (trimChars env.shadowText).length then
      trimChars env.shadowText
    else cur
  else cur

/-- Strategy 6 (application-root containers): adopt the trimmed
concatenation when strictly longer, under the 200-character guard. -/
def extractStep6 (env : ExtractEnv) (cur : String) : String :=
  if cur = "" ∨ cur.length < 200 then
    if cur.length < (trimChars env.appText).length then
      trimChars env.appText
    else cur
  else cur

/-- Navigation words dropped by the body-text filter of strategy 7. -/
def navWords : List String :=
  ["home", "about", "contact", "menu", "search", "login", "register",
   "sign in", "sign up"]

/-- Line filter of strategy 7: trim each line, drop lines shorter than
10 characters and lines matching the navigation pattern, rejoin. -/
def bodyFilterLines (bodyText : String) : String :=
  joinSep "\n"
    ((((splitChar '\n' bodyText.toList).map String.mk).map trimChars).filter
      (fun line =>
        decide (10 ≤ line.length) &&
          !(navWords.contains (toLowerStr line))))

/-- Strategy 7 (whole-body last resort): when the raw body text is
strictly longer than the current best, the nav-filtered body text is
adopted unconditionally — the filtered text itself is never compared. -/
def extractStep7 (env : ExtractEnv) (cur : String) : String :=
  if cur = "" ∨ cur.length < 200 then
    if cur.length < (trimChars env.bodyText).length then
      bodyFilterLines env.bodyText
    else cur
  else cur

/-- Running best after each rung of the ladder. -/
def extractLadderStates (env : ExtractEnv) (selector : Option String) :
    List String :=
  let t1 := extractStep12 env selector
  let t3 := extractStep3 env t1
  let t4 := extractStep4 env t3
  let t5 := extractStep5 env t4
  let t6 := extractStep6 env t5
  let t7 := extractStep7 env t6
  [t1, t3, t4, t5, t6, t7]

/-- Final text of one ladder pass. -/
def extractTextOnce (env : ExtractEnv) (selector : Option String) : String :=
  extractStep7 env (extractStep6 env (extractStep5 env
    (extractStep4 env (extractStep3 env (extractStep12 env selector)))))

/-! Heap model of truncateDeep for object graphs with sharing and
cycles: object and array nodes live in a heap and are addressed by
references, and the WeakSet of visited nodes is threaded through the
traversal exactly as in the source. -/

/-- Primitive leaf values of the heap model. -/
inductive HPrim where
  | null
  | bool (b : Bool)
  | num (n : Int)
  | str (s : String)

/-- A runtime value: a primitive, a function, or a reference to a heap
node. -/
inductive HVal where
  | prim (p : HPrim)
  | fn
  | ref (r : Nat)

/-- A heap node: an array of values or an object with ordered fields. -/
inductive HNode where
  | arrN (elems : List HVal)
  | objN (fields : List (String × HVal))

/-- The heap: node r is the r-th entry. -/
abbrev Heap := List HNode

/-- Left-to-right traversal of a list threading the visited set through
a stateful element transformer, failing as soon as one element fails. -/
def statefulMap {α β : Type} (f : List Nat → α → Option (β × List Nat)) :
    List Nat → List α → Option (List β × List Nat)
  | seen, [] => some ([], seen)
  | seen, x :: xs =>
      match f seen x with
      | none => none
      | some (y, seen') =>
          match statefulMap f seen' xs with
          | none => none
          | some (ys, seen'') => some (y :: ys, seen'')

/-- Heap-graph embedding of truncateDeep: the visited set seen is
threaded left to right through the whole traversal (the source WeakSet
is add-only), a reference met a second time anywhere in the traversal
becomes the string circular-marker, a function value becomes the
function placeholder, and node contents are sliced and marked exactly
as in the tree model.  The fuel argument bounds the reference depth of
the traversal and is a modelling artifact: since every descent into a
node first records its reference in seen, a depth of heap.length + 1
always suffices on well-formed heaps (proved below). -/
def truncH (cfg : TruncCfg) (heap : Heap) :
    Nat → List Nat → HVal → Option (JVal × List Nat)
  | 0, _, _ => none
  | _ + 1, seen, .prim .null => some (.null, seen)
  | _ + 1, seen, .prim (.bool b) => some (.bool b, seen)
  | _ + 1, seen, .prim (.num n) => some (.num n, seen)
  | _ + 1, seen, .prim (.str s) => some (.str (truncStr cfg s), seen)
  | _ + 1, seen, .fn => some (.str "[function]", seen)
  | fuel + 1, seen, .ref r =>
      if r ∈ seen then some (.str "[circular]", seen)
      else
        match heap.get? r with
        | none => none
        | some (.arrN l) =>
            match statefulMap (truncH cfg heap fuel) (r :: seen)
                (l.take cfg.maxArray) with
            | none => none
            | some (outs, seen') =>
                some (.arr (if l.length > cfg.maxArray then
                    outs ++ [.str (arrMarker (l.length - cfg.maxArray))]
                  else outs), seen')
        | some (.objN kvs) =>
            match statefulMap (fun seen1 (p : String × HVal) =>
                match truncH cfg heap fuel seen1 p.2 with
                | none => none
                | some (j, seen2) => some ((p.1, j), seen2))
                (r :: seen) (kvs.take cfg.maxKeys) with
            | none => none
            | some (outs, seen') =>
                some (.obj (if kvs.length > cfg.maxKeys then
                    setKey outs "__truncated__"
                      (.str (objMarker (kvs.length - cfg.maxKeys)))
                  else outs), seen')

/-- Well-formedness of a single value with respect to a heap: every
reference points at an existing node. -/
def hvalWF (heap : Heap) : HVal → Bool
  | .ref r => decide (r < heap.length)
  | _ => true

/-- Well-formedness of a heap: every reference stored in any node points
at an existing node (this is automatic for real JavaScript graphs). -/
def heapWF (heap : Heap) : Bool :=
  heap.all (fun node =>
    match node with
    | .arrN l => l.all (hvalWF heap)
    | .objN kvs => kvs.all (fun p => hvalWF heap p.2))

/-! Environment predicates and concrete example inputs used by the claim
theorems, their witnesses and their counterexamples. -/

/-- A backend that, on every in-loop call, answers on the preferred model
with a candidate that requests at least one tool call. -/
def alwaysToolCalls (cfg : LoopConfig) (env : LoopEnv) : Prop :=
  ∀ round body, ∃ c, env.fetch round cfg.preferred body = .ok (some c)
    ∧ getFunctionCalls (some c) ≠ []

/-- Approval never blocks: either auto-approve is on or the user approves
every round. -/
def approvalGranted (cfg : LoopConfig) (env : LoopEnv) : Prop :=
  ∀ round, cfg.autoApprove = true ∨ env.approval round = some true

/-- The earlier Google branch of decodeGoogleRedirect produced nothing. -/
def googleMiss (u : UrlParts) : Prop :=
  googlePattern u = false ∨ firstTruthyParam u ["q", "url", "u"] = none

/-- The earlier Bing branch of decodeGoogleRedirect produced nothing. -/
def bingMiss (u : UrlParts) : Prop :=
  bingPattern u = false ∨ bingParam u = none

/-- Candidate content that requests one generic tool call. -/
def candPlain : Content := ⟨"model", [.functionCall "foo" .null]⟩

/-- Candidate content that requests one workflow tool call. -/
def candSearch : Content := ⟨"model", [.functionCall "searchWeb" .null]⟩

/-- Loop environment whose backend always requests a tool call on every
model and never answers the forced or final no-tools calls. -/
def envAlways : LoopEnv where
  fetch := fun _ _ _ => .ok (some candPlain)
  forcedFetch := fun _ _ _ => none
  finalFetch := fun _ _ => none
  approval := fun _ => none
  execTool := fun _ _ _ _ => .null
  summaryOracle := fun _ => ""

/-- One-round configuration with auto-approve on. -/
def cfgOneRound : LoopConfig := ⟨"gemini-2.5-flash-lite", 1, true⟩

/-- Configuration with auto-approve off. -/
def cfgManual : LoopConfig := ⟨"gemini-2.5-flash-lite", 8, false⟩

/-- Loop environment whose backend always requests the same workflow tool
call; used to exercise the repeat detector. -/
def envSearchLoop : LoopEnv where
  fetch := fun _ _ _ => .ok (some candSearch)
  forcedFetch := fun _ _ _ => some (some ⟨"model", [.text "forced answer"]⟩)
  finalFetch := fun _ _ => none
  approval := fun _ => some true
  execTool := fun _ _ _ _ => .null
  summaryOracle := fun _ => ""

/-- Driver state in which the same workflow call set has already repeated
three times. -/
def stRepeated : LoopState :=
  ⟨[], some (callSignature (getFunctionCalls (some candSearch))), 3, 1⟩

/-- Fresh driver state. -/
def stFresh : LoopState := ⟨[], none, 0, 1⟩

/-- Backend for the C6 counterexample: the preferred model persistently
returns 503 (after retries), the first fallback model would succeed. -/
def envBackend503 : LoopEnv where
  fetch := fun _ m _ =>
    if m = "gemini-2.5-flash" then .ok (some ⟨"model", [.text "saved"]⟩)
    else .httpResp 503 "Service Unavailable"
  forcedFetch := fun _ _ _ => none
  finalFetch := fun _ _ => none
  approval := fun _ => none
  execTool := fun _ _ _ _ => .null
  summaryOracle := fun _ => ""

/-- Raw-fetch oracle answering 400 on the first attempt. -/
def retryEnv400 : RetryEnv := ⟨fun _ => .resp 400, fun _ => 7⟩

/-- Raw-fetch oracle answering 503 on every attempt, with fixed jitter. -/
def retryEnv503 : RetryEnv := ⟨fun _ => .resp 503, fun _ => 7⟩

/-- Extraction environment for the C9 counterexample: the aggregation
strategy finds 30 characters, the raw body text is longer but consists
only of short navigation-like lines that the final filter drops. -/
def envLadder : ExtractEnv where
  selectorText := ""
  semanticTexts := ["", "", "", "", "", "", "", "", ""]
  aggregateText := String.mk (List.replicate 30 'x')
  dynamicTexts := []
  shadowText := ""
  appText := ""
  bodyText := joinSep "\n" (List.replicate 20 "ab")

/-- A one-node heap forming a self-referential object. -/
def heapCycle : Heap := [.objN [("self", .ref 0)]]

/-! Lemmas about the truncation embedding. -/

theorem stringsOfList_append (a b : List JVal) :
    stringsOfList (a ++ b) = stringsOfList a ++ stringsOfList b := by
  induction a with
  | nil => simp [stringsOfList]
  | cons x xs ih => simp [stringsOfList, ih]

theorem arraysOfList_append (a b : List JVal) :
    arraysOfList (a ++ b) = arraysOfList a ++ arraysOfList b := by
  induction a with
  | nil => simp [arraysOfList]
  | cons x xs ih => simp [arraysOfList, ih]

theorem objectsOfList_append (a b : List JVal) :
    objectsOfList (a ++ b) = objectsOfList a ++ objectsOfList b := by
  induction a with
  | nil => simp [objectsOfList]
  | cons x xs ih => simp [objectsOfList, ih]

theorem mem_stringsOfKVs {s : String} :
    ∀ l : List (String × JVal), s ∈ stringsOfKVs l ↔ ∃ p ∈ l, s ∈ stringsOf p.2
  | [] => by simp [stringsOfKVs]
  | (k, v) :: xs => by
      simp only [stringsOfKVs, List.mem_append, mem_stringsOfKVs xs,
        List.mem_cons]
      constructor
      · rintro (h | ⟨p, hp, hs⟩)
        · exact ⟨(k, v), Or.inl rfl, h⟩
        · exact ⟨p, Or.inr hp, hs⟩
      · rintro ⟨p, hp | hp, hs⟩
        · subst hp; exact Or.inl hs
        · exact Or.inr ⟨p, hp, hs⟩

theorem mem_arraysOfKVs {a : List JVal} :
    ∀ l : List (String × JVal), a ∈ arraysOfKVs l ↔ ∃ p ∈ l, a ∈ arraysOf p.2
  | [] => by simp [arraysOfKVs]
  | (k, v) :: xs => by
      simp only [arraysOfKVs, List.mem_append, mem_arraysOfKVs xs,
        List.mem_cons]
      constructor
      · rintro (h | ⟨p, hp, hs⟩)
        · exact ⟨(k, v), Or.inl rfl, h⟩
        · exact ⟨p, Or.inr hp, hs⟩
      · rintro ⟨p, hp | hp, hs⟩
        · subst hp; exact Or.inl hs
        · exact Or.inr ⟨p, hp, hs⟩

theorem mem_objectsOfKVs {a : List (String × JVal)} :
    ∀ l : List (String × JVal), a ∈ objectsOfKVs l ↔ ∃ p ∈ l, a ∈ objectsOf p.2
  | [] => by simp [objectsOfKVs]
  | (k, v) :: xs => by
      simp only [objectsOfKVs, List.mem_append, mem_objectsOfKVs xs,
        List.mem_cons]
      constructor
      · rintro (h | ⟨p, hp, hs⟩)
        · exact ⟨(k, v), Or.inl rfl, h⟩
        · exact ⟨p, Or.inr hp, hs⟩
      · rintro ⟨p, hp | hp, hs⟩
        · subst hp; exact Or.inl hs
        · exact Or.inr ⟨p, hp, hs⟩

theorem setKey_length_le (l : List (String × JVal)) (k : String) (v : JVal) :
    (setKey l k v).length ≤ l.length + 1 := by
  unfold setKey; split
  · simp
  · simp

theorem mem_setKey {p : String × JVal} {l : List (String × JVal)}
    {k : String} {v : JVal} (h : p ∈ setKey l k v) : p ∈ l ∨ p = (k, v) := by
  unfold setKey at h
  split at h
  · rcases List.mem_map.1 h with ⟨q, hq, he⟩
    by_cases hk : q.1 = k
    · rw [if_pos hk] at he
      exact Or.inr he.symm
    · rw [if_neg hk] at he
      exact Or.inl (he ▸ hq)
  · rcases List.mem_append.1 h with h | h
    · exact Or.inl h
    · right; simpa using h

theorem mem_setKey_self (l : List (String × JVal)) (k : String) (v : JVal) :
    (k, v) ∈ setKey l k v := by
  unfold setKey; split
  case isTrue h =>
    rcases List.any_eq_true.1 h with ⟨q, hq, hk⟩
    refine List.mem_map.2 ⟨q, hq, ?_⟩
    rw [if_pos (by simpa using hk)]
  case isFalse h => simp

theorem truncTake_length_le (cfg : TruncCfg) :
    ∀ n (l : List JVal), (truncTake cfg n l).length ≤ n
  | n, [] => by cases n <;> simp [truncTake]
  | 0, x :: xs => by simp [truncTake]
  | n + 1, x :: xs => by
      simp only [truncTake, List.length_cons]
      exact Nat.succ_le_succ (truncTake_length_le cfg n xs)

theorem truncTakeKV_length_le (cfg : TruncCfg) :
    ∀ n (l : List (String × JVal)), (truncTakeKV cfg n l).length ≤ n
  | n, [] => by cases n <;> simp [truncTakeKV]
  | 0, (k, v) :: xs => by simp [truncTakeKV]
  | n + 1, (k, v) :: xs => by
      simp only [truncTakeKV, List.length_cons]
      exact Nat.succ_le_succ (truncTakeKV_length_le cfg n xs)

theorem strShape_truncStr (cfg : TruncCfg) (s : String) :
    StrOutShape cfg (truncStr cfg s) := by
  unfold truncStr
  split
  case isTrue h => exact Or.inr (Or.inl ⟨s, by omega, rfl⟩)
  case isFalse h => exact Or.inl (by omega)

mutual
theorem bounds_truncateDeep (cfg : TruncCfg) :
    ∀ v : JVal,
      (∀ a ∈ arraysOf (truncateDeep cfg v), a.length ≤ cfg.maxArray + 1) ∧
      (∀ o ∈ objectsOf (truncateDeep cfg v), o.length ≤ cfg.maxKeys + 1) ∧
      (∀ s ∈ stringsOf (truncateDeep cfg v), StrOutShape cfg s)
  | .null => by simp [truncateDeep, arraysOf, objectsOf, stringsOf]
  | .bool b => by simp [truncateDeep, arraysOf, objectsOf, stringsOf]
  | .num n => by simp [truncateDeep, arraysOf, objectsOf, stringsOf]
  | .func => by
      refine ⟨by simp [truncateDeep, arraysOf],
        by simp [truncateDeep, objectsOf], ?_⟩
      intro s hs
      simp only [truncateDeep, stringsOf, List.mem_singleton] at hs
      subst hs
      exact Or.inr (Or.inr (Or.inl rfl))
  | .str s0 => by
      refine ⟨by simp [truncateDeep, arraysOf],
        by simp [truncateDeep, objectsOf], ?_⟩
      intro s hs
      simp only [truncateDeep, stringsOf, List.mem_singleton] at hs
      subst hs
      exact strShape_truncStr cfg s0
  | .arr l => by
      have ihl := bounds_truncTake cfg cfg.maxArray l
      by_cases hlen : l.length > cfg.maxArray
      · have hT : truncateDeep cfg (.arr l)
            = .arr (truncTake cfg cfg.maxArray l
                ++ [.str (arrMarker (l.length - cfg.maxArray))]) := by
          simp [truncateDeep, hlen]
        rw [hT]
        refine ⟨?_, ?_, ?_⟩
        · intro a ha
          simp only [arraysOf, List.mem_cons] at ha
          rcases ha with ha | ha
          · subst ha
            simp only [List.length_append, List.length_singleton]
            exact Nat.add_le_add_right (truncTake_length_le cfg _ l) 1
          · rw [arraysOfList_append] at ha
            rcases List.mem_append.1 ha with ha | ha
            · exact ihl.1 a ha
            · simp [arraysOfList, arraysOf] at ha
        · intro o ho
          simp only [objectsOf] at ho
          rw [objectsOfList_append] at ho
          rcases List.mem_append.1 ho with ho | ho
          · exact ihl.2.1 o ho
          · simp [objectsOfList, objectsOf] at ho
        · intro s hs
          simp only [stringsOf] at hs
          rw [stringsOfList_append] at hs
          rcases List.mem_append.1 hs with hs | hs
          · exact ihl.2.2 s hs
          · simp only [stringsOfList, stringsOf, List.append_nil,
              List.mem_singleton] at hs
            subst hs
            exact Or.inr (Or.inr (Or.inr (Or.inl ⟨_, rfl⟩)))
      · have hT : truncateDeep cfg (.arr l)
            = .arr (truncTake cfg cfg.maxArray l) := by
          simp [truncateDeep, hlen]
        rw [hT]
        refine ⟨?_, ihl.2.1, ihl.2.2⟩
        intro a ha
        simp only [arraysOf, List.mem_cons] at ha
        rcases ha with ha | ha
        · subst ha
          exact Nat.le_succ_of_le (truncTake_length_le cfg _ l)
        · exact ihl.1 a ha
  | .obj kvs => by
      have ihl := bounds_truncTakeKV cfg cfg.maxKeys kvs
      by_cases hlen : kvs.length > cfg.maxKeys
      · have hT : truncateDeep cfg (.obj kvs)
            = .obj (setKey (truncTakeKV cfg cfg.maxKeys kvs) "__truncated__"
                (.str (objMarker (kvs.length - cfg.maxKeys)))) := by
          simp [truncateDeep, hlen]
        rw [hT]
        refine ⟨?_, ?_, ?_⟩
        · intro a ha
          simp only [arraysOf] at ha
          rcases (mem_arraysOfKVs _).1 ha with ⟨p, hp, hpa⟩
          rcases mem_setKey hp with hp | hp
          · exact ihl.1 a ((mem_arraysOfKVs _).2 ⟨p, hp, hpa⟩)
          · subst hp; simp [arraysOf] at hpa
        · intro o ho
          simp only [objectsOf, List.mem_cons] at ho
          rcases ho with ho | ho
          · subst ho
            exact le_trans (setKey_length_le _ _ _)
              (Nat.add_le_add_right (truncTakeKV_length_le cfg _ kvs) 1)
          · rcases (mem_objectsOfKVs _).1 ho with ⟨p, hp, hpa⟩
            rcases mem_setKey hp with hp | hp
            · exact ihl.2.1 o ((mem_objectsOfKVs _).2 ⟨p, hp, hpa⟩)
            · subst hp; simp [objectsOf] at hpa
        · intro s hs
          simp only [stringsOf] at hs
          rcases (mem_stringsOfKVs _).1 hs with ⟨p, hp, hps⟩
          rcases mem_setKey hp with hp | hp
          · exact ihl.2.2 s ((mem_stringsOfKVs _).2 ⟨p, hp, hps⟩)
          · subst hp
            simp only [stringsOf, List.mem_singleton] at hps
            subst hps
            exact Or.inr (Or.inr (Or.inr (Or.inr ⟨_, rfl⟩)))
      · have hT : truncateDeep cfg (.obj kvs)
            = .obj (truncTakeKV cfg cfg.maxKeys kvs) := by
          simp [truncateDeep, hlen]
        rw [hT]
        refine ⟨ihl.1, ?_, ihl.2.2⟩
        intro o ho
        simp only [objectsOf, List.mem_cons] at ho
        rcases ho with ho | ho
        · subst ho
          exact Nat.le_succ_of_le (truncTakeKV_length_le cfg _ kvs)
        · exact ihl.2.1 o ho

theorem bounds_truncTake (cfg : TruncCfg) :
    ∀ n (l : List JVal),
      (∀ a ∈ arraysOfList (truncTake cfg n l), a.length ≤ cfg.maxArray + 1) ∧
      (∀ o ∈ objectsOfList (truncTake cfg n l), o.length ≤ cfg.maxKeys + 1) ∧
      (∀ s ∈ stringsOfList (truncTake cfg n l), StrOutShape cfg s)
  | n, [] => by
      cases n <;> simp [truncTake, arraysOfList, objectsOfList, stringsOfList]
  | 0, x :: xs => by
      simp [truncTake, arraysOfList, objectsOfList, stringsOfList]
  | n + 1, x :: xs => by
      have ihx := bounds_truncateDeep cfg x
      have ihxs := bounds_truncTake cfg n xs
      simp only [truncTake, arraysOfList, objectsOfList, stringsOfList]
      refine ⟨?_, ?_, ?_⟩
      · intro a ha
        rcases List.mem_append.1 ha with ha | ha
        · exact ihx.1 a ha
        · exact ihxs.1 a ha
      · intro o ho
        rcases List.mem_append.1 ho with ho | ho
        · exact ihx.2.1 o ho
        · exact ihxs.2.1 o ho
      · intro s hs
        rcases List.mem_append.1 hs with hs | hs
        · exact ihx.2.2 s hs
        · exact ihxs.2.2 s hs

theorem bounds_truncTakeKV (cfg : TruncCfg) :
    ∀ n (l : List (String × JVal)),
      (∀ a ∈ arraysOfKVs (truncTakeKV cfg n l), a.length ≤ cfg.maxArray + 1) ∧
      (∀ o ∈ objectsOfKVs (truncTakeKV cfg n l), o.length ≤ cfg.maxKeys + 1) ∧
      (∀ s ∈ stringsOfKVs (truncTakeKV cfg n l), StrOutShape cfg s)
  | n, [] => by
      cases n <;> simp [truncTakeKV, arraysOfKVs, objectsOfKVs, stringsOfKVs]
  | 0, (k, v) :: xs => by
      simp [truncTakeKV, arraysOfKVs, objectsOfKVs, stringsOfKVs]
  | n + 1, (k, v) :: xs => by
      have ihx := bounds_truncateDeep cfg v
      have ihxs := bounds_truncTakeKV cfg n xs
      simp only [truncTakeKV, arraysOfKVs, objectsOfKVs, stringsOfKVs]
      refine ⟨?_, ?_, ?_⟩
      · intro a ha
        rcases List.mem_append.1 ha with ha | ha
        · exact ihx.1 a ha
        · exact ihxs.1 a ha
      · intro o ho
        rcases List.mem_append.1 ho with ho | ho
        · exact ihx.2.1 o ho
        · exact ihxs.2.1 o ho
      · intro s hs
        rcases List.mem_append.1 hs with hs | hs
        · exact ihx.2.2 s hs
        · exact ihxs.2.2 s hs
end

mutual
theorem truncateDeep_id (cfg : TruncCfg) :
    ∀ v : JVal, withinLimits cfg v = true → truncateDeep cfg v = v
  | .null, _ => rfl
  | .bool b, _ => rfl
  | .num n, _ => rfl
  | .func, h => by simp [withinLimits] at h
  | .str s, h => by
      simp only [withinLimits, decide_eq_true_eq] at h
      simp only [truncateDeep, truncStr]
      rw [if_neg (by omega)]
  | .arr l, h => by
      simp only [withinLimits, Bool.and_eq_true, decide_eq_true_eq] at h
      simp only [truncateDeep]
      rw [if_neg (by omega), truncTake_id cfg cfg.maxArray l h.1 h.2]
  | .obj kvs, h => by
      simp only [withinLimits, Bool.and_eq_true, decide_eq_true_eq] at h
      simp only [truncateDeep]
      rw [if_neg (by omega), truncTakeKV_id cfg cfg.maxKeys kvs h.1 h.2]

theorem truncTake_id (cfg : TruncCfg) :
    ∀ n (l : List JVal), l.length ≤ n → withinLimitsList cfg l = true →
      truncTake cfg n l = l
  | n, [], _, _ => by cases n <;> rfl
  | 0, x :: xs, h, _ => by simp at h
  | n + 1, x :: xs, h, hw => by
      simp only [withinLimitsList, Bool.and_eq_true] at hw
      simp only [truncTake, truncateDeep_id cfg x hw.1,
        truncTake_id cfg n xs (by simpa using h) hw.2]

theorem truncTakeKV_id (cfg : TruncCfg) :
    ∀ n (l : List (String × JVal)), l.length ≤ n →
      withinLimitsKVs cfg l = true → truncTakeKV cfg n l = l
  | n, [], _, _ => by cases n <;> rfl
  | 0, (k, v) :: xs, h, _ => by simp at h
  | n + 1, (k, v) :: xs, h, hw => by
      simp only [withinLimitsKVs, Bool.and_eq_true] at hw
      simp only [truncTakeKV, truncateDeep_id cfg v hw.1,
        truncTakeKV_id cfg n xs (by simpa using h) hw.2]
end

/-- C3: refuted as stated.  With limits maxChars 5, maxArray 2, maxKeys 2
the truncation of a 7-character string is a 26-character string, of a
3-element array is a 3-element array, and of a 3-key object is a 3-key
object: the elision markers themselves push every bound past the
configured maxima, so truncate does not produce strings of length at most
maxChars, arrays of at most maxArray items, or objects of at most maxKeys
keys. -/
theorem C3_truncation_bounds_counterexample :
    strLenOf (truncateDeep ⟨5, 2, 2⟩
        (.str (String.mk (List.replicate 7 'a')))) = 26
    ∧ (match truncateDeep ⟨5, 2, 2⟩ (.arr [.null, .null, .null]) with
        | .arr out => out.length
        | _ => 0) = 3
    ∧ (match truncateDeep ⟨5, 2, 2⟩
          (.obj [("a", .null), ("b", .null), ("c", .null)]) with
        | .obj out => out.length
        | _ => 0) = 3 := by
  refine ⟨?_, by decide, by decide⟩
  decide

/-- C4: refuted as stated.  Truncating the 7-character string aaaaaaa with
maxChars 5 yields a 26-character marked string; truncating that again
yields a 27-character string, so applying truncateDeep twice differs from
applying it once. -/
theorem C4_truncate_idempotent_counterexample :
    truncateDeep ⟨5, 2, 2⟩ (truncateDeep ⟨5, 2, 2⟩
        (.str (String.mk (List.replicate 7 'a'))))
      ≠ truncateDeep ⟨5, 2, 2⟩ (.str (String.mk (List.replicate 7 'a'))) :=
  fun h => absurd (congrArg strLenOf h) (by decide)

/-- C3 (amended): for every value, each array in the truncation has at
most maxArray items plus one elision marker, each object has at most
maxKeys keys plus one marker key, and every string value is either an
in-limit string, a maxChars-prefix followed by a marker stating exactly
how many characters were cut, the function placeholder, or an item or
key elision marker; moreover an over-long string, array or object always
receives the marker stating how much was elided. -/
theorem C3_truncation_bounds_amended :
    (∀ (cfg : TruncCfg) (v : JVal),
       (∀ a ∈ arraysOf (truncateDeep cfg v), a.length ≤ cfg.maxArray + 1) ∧
       (∀ o ∈ objectsOf (truncateDeep cfg v), o.length ≤ cfg.maxKeys + 1) ∧
       (∀ s ∈ stringsOf (truncateDeep cfg v), StrOutShape cfg s))
    ∧ (∀ (cfg : TruncCfg) (s : String), cfg.maxChars < s.length →
        truncateDeep cfg (.str s)
          = .str (s.take cfg.maxChars ++ strMarker (s.length - cfg.maxChars)))
    ∧ (∀ (cfg : TruncCfg) (l : List JVal), cfg.maxArray < l.length →
        truncateDeep cfg (.arr l)
          = .arr (truncTake cfg cfg.maxArray l
              ++ [.str (arrMarker (l.length - cfg.maxArray))]))
    ∧ (∀ (cfg : TruncCfg) (kvs : List (String × JVal)),
        cfg.maxKeys < kvs.length →
        ∃ out, truncateDeep cfg (.obj kvs) = .obj out
          ∧ ("__truncated__",
              JVal.str (objMarker (kvs.length - cfg.maxKeys))) ∈ out) := by
  refine ⟨bounds_truncateDeep, ?_, ?_, ?_⟩
  · intro cfg s h
    simp only [truncateDeep, truncStr]
    rw [if_pos (by omega)]
  · intro cfg l h
    simp [truncateDeep, h]
  · intro cfg kvs h
    refine ⟨setKey (truncTakeKV cfg cfg.maxKeys kvs) "__truncated__"
        (.str (objMarker (kvs.length - cfg.maxKeys))), ?_,
      mem_setKey_self _ _ _⟩
    simp [truncateDeep, h]

/-- C3 (amended) witness: the marker equations evaluated at the
counterexample inputs. -/
theorem C3_truncation_bounds_witness :
    truncateDeep ⟨5, 2, 2⟩ (.str (String.mk (List.replicate 7 'a')))
      = .str ((String.mk (List.replicate 7 'a')).take 5 ++ strMarker 2)
    ∧ truncateDeep ⟨5, 2, 2⟩ (.arr [.null, .null, .null])
      = .arr (truncTake ⟨5, 2, 2⟩ 2 [.null, .null, .null]
          ++ [.str (arrMarker 1)])
    ∧ ∃ out,
        truncateDeep ⟨5, 2, 2⟩ (.obj [("a", .null), ("b", .null), ("c", .null)])
          = .obj out ∧ ("__truncated__", JVal.str (objMarker 1)) ∈ out :=
  ⟨C3_truncation_bounds_amended.2.1 ⟨5, 2, 2⟩ _ (by decide),
   C3_truncation_bounds_amended.2.2.1 ⟨5, 2, 2⟩ _ (by decide),
   C3_truncation_bounds_amended.2.2.2 ⟨5, 2, 2⟩ _ (by decide)⟩

/-- C4 (amended): truncateDeep is the identity, and hence idempotent, on
values already inside every limit (no string beyond maxChars, no array
beyond maxArray, no object beyond maxKeys, no function values); it is not
idempotent in general because elision markers push truncated strings,
arrays and objects back over the limits. -/
theorem C4_truncate_idempotent_amended (cfg : TruncCfg) (v : JVal)
    (h : withinLimits cfg v = true) :
    truncateDeep cfg v = v ∧
      truncateDeep cfg (truncateDeep cfg v) = truncateDeep cfg v := by
  have h1 := truncateDeep_id cfg v h
  exact ⟨h1, by rw [h1]; exact h1⟩

/-- C4 (amended) witness: a small in-limit object is a fixed point. -/
theorem C4_truncate_idempotent_witness :
    truncateDeep {} (.obj [("ok", .str "hi")]) = .obj [("ok", .str "hi")]
    ∧ truncateDeep {} (truncateDeep {} (.obj [("ok", .str "hi")]))
        = truncateDeep {} (.obj [("ok", .str "hi")]) :=
  C4_truncate_idempotent_amended {} _ (by decide)

/-! Lemmas about context-size compression. -/

theorem trimGo_le (maxChars : Nat) :
    ∀ (l kept : List Content), estimateContentChars kept ≤ maxChars →
      estimateContentChars (trimGo maxChars l kept) ≤ maxChars
  | [], kept, h => h
  | c :: rest, kept, h => by
      simp only [trimGo]
      split
      · exact h
      case isFalse h2 => exact trimGo_le maxChars rest (c :: kept) (by omega)

theorem trimContents_le (contents : List Content) (maxChars : Nat) :
    estimateContentChars (trimContents contents maxChars) ≤ maxChars := by
  unfold trimContents
  split
  case isTrue h => exact h
  case isFalse h =>
    exact trimGo_le maxChars contents.reverse []
      (by simp [estimateContentChars])

theorem compressGo_le (oracle : List Content → String)
    (contents : List Content) (maxChars : Nat) :
    ∀ tc, estimateContentChars (compressGo oracle contents maxChars tc)
      ≤ maxChars
  | 0 => trimContents_le contents maxChars
  | 1 => trimContents_le contents maxChars
  | 2 => trimContents_le contents maxChars
  | tc + 3 => by
      simp only [compressGo]
      split
      case isTrue h => exact h
      case isFalse h => exact compressGo_le oracle contents maxChars (tc + 1)

/-- C5: for every conversation whose estimated character volume exceeds
the budget, compressIfNeeded returns contents whose estimate is within
the budget, and the trimContents fallback used when no tail size
converges guarantees the bound by itself on any input. -/
theorem C5_compression_bound :
    (∀ (oracle : List Content → String) (contents : List Content)
       (maxChars : Nat), estimateContentChars contents > maxChars →
       estimateContentChars (compressIfNeeded oracle contents maxChars)
         ≤ maxChars)
    ∧ (∀ (contents : List Content) (maxChars : Nat),
        estimateContentChars (trimContents contents maxChars) ≤ maxChars) := by
  refine ⟨?_, trimContents_le⟩
  intro oracle contents maxChars h
  unfold compressIfNeeded
  split
  case isTrue h2 => exact h2
  case isFalse h2 => exact compressGo_le oracle contents maxChars _

/-- C5 witness: a single six-character message against a budget of three
is compressed (here: hard-trimmed) to an estimate within the budget. -/
theorem C5_compression_bound_witness :
    estimateContentChars [Content.mk "user" [.text "abcdef"]] > 3
    ∧ estimateContentChars
        (compressIfNeeded (fun _ => "") [Content.mk "user" [.text "abcdef"]] 3)
      ≤ 3 :=
  ⟨by decide, C5_compression_bound.1 (fun _ => "") _ 3 (by decide)⟩

/-! Lemmas about fetchWithRetry and the per-round backend fallback. -/

theorem delayShift (f : Nat → ℚ) (attempt k : Nat) :
    f attempt :: (List.range k).map (fun i => f (attempt + 1 + i))
      = (List.range (k + 1)).map (fun i => f (attempt + i)) := by
  rw [List.range_succ_eq_map, List.map_cons, List.map_map]
  refine congrArg₂ _ (by rw [Nat.add_zero]) ?_
  refine congrArg (fun g => List.map g (List.range k)) ?_
  funext i
  simp only [Function.comp, Nat.succ_eq_add_one]
  exact congrArg f (by omega)

theorem fwrAux_attempts_le (env : RetryEnv) (base : Nat) :
    ∀ (fuel attempt : Nat) (lastErr : Bool) (delays : List ℚ),
      ((fwrAux env base fuel attempt lastErr delays).2).attempts
        ≤ attempt + fuel + 1
  | 0, attempt, lastErr, delays => by
      simp only [fwrAux]
      split
      · simp
      · cases env.answer attempt <;> simp
  | fuel + 1, attempt, lastErr, delays => by
      simp only [fwrAux]
      cases ha : env.answer attempt with
      | threw =>
          dsimp only
          have := fwrAux_attempts_le env base fuel (attempt + 1) true
            (delays ++ [backoffDelay base env attempt])
          omega
      | resp s =>
          dsimp only
          split
          · dsimp only; omega
          · split
            · have := fwrAux_attempts_le env base fuel (attempt + 1) lastErr
                (delays ++ [backoffDelay base env attempt])
              omega
            · dsimp only; omega

theorem fwrAux_nontransient (env : RetryEnv) (base s : Nat)
    (hok : isOkStatus s = false) (htr : isTransientStatus s = false) :
    ∀ (k fuel attempt : Nat) (lastErr : Bool) (delays : List ℚ),
      k < fuel →
      (∀ i < k, transientAns (env.answer (attempt + i)) = true) →
      env.answer (attempt + k) = .resp s →
      fwrAux env base fuel attempt lastErr delays
        = (.returned s, ⟨attempt + k + 1, delays ++
            (List.range k).map (fun i => backoffDelay base env (attempt + i))⟩)
  | 0, fuel, attempt, lastErr, delays, hk, _, hans => by
      cases fuel with
      | zero => omega
      | succ f =>
          rw [Nat.add_zero] at hans
          simp only [fwrAux, hans, hok, htr]
          simp
  | k + 1, fuel, attempt, lastErr, delays, hk, htrans, hans => by
      cases fuel with
      | zero => omega
      | succ f =>
          have h0 := htrans 0 (by omega)
          rw [Nat.add_zero] at h0
          have hshift : ∀ i < k,
              transientAns (env.answer (attempt + 1 + i)) = true := by
            intro i hi
            have := htrans (i + 1) (by omega)
            rwa [show attempt + (i + 1) = attempt + 1 + i by omega] at this
          have hans' : env.answer (attempt + 1 + k) = .resp s := by
            rwa [show attempt + 1 + k = attempt + (k + 1) by omega]
          simp only [fwrAux]
          cases ha : env.answer attempt with
          | threw =>
              dsimp only
              rw [fwrAux_nontransient env base s hok htr k f (attempt + 1)
                true (delays ++ [backoffDelay base env attempt])
                (by omega) hshift hans']
              simp only [Prod.mk.injEq, RetryTrace.mk.injEq]
              refine ⟨trivial, by omega, ?_⟩
              rw [List.append_assoc, List.singleton_append,
                delayShift (backoffDelay base env) attempt k]
          | resp s2 =>
              rw [ha] at h0
              simp only [transientAns, Bool.and_eq_true,
                Bool.not_eq_true'] at h0
              dsimp only
              rw [if_neg (by simp [h0.1]), if_pos h0.2]
              rw [fwrAux_nontransient env base s hok htr k f (attempt + 1)
                lastErr (delays ++ [backoffDelay base env attempt])
                (by omega) hshift hans']
              simp only [Prod.mk.injEq, RetryTrace.mk.injEq]
              refine ⟨trivial, by omega, ?_⟩
              rw [List.append_assoc, List.singleton_append,
                delayShift (backoffDelay base env) attempt k]

theorem fwrAux_all_transient_delays (env : RetryEnv) (base : Nat) :
    ∀ (fuel attempt : Nat) (lastErr : Bool) (delays : List ℚ),
      (∀ i < fuel, transientAns (env.answer (attempt + i)) = true) →
      ((fwrAux env base fuel attempt lastErr delays).2).delays
        = delays ++
            (List.range fuel).map (fun i => backoffDelay base env (attempt + i))
  | 0, attempt, lastErr, delays, _ => by
      simp only [fwrAux]
      split
      · simp
      · cases env.answer attempt <;> simp
  | fuel + 1, attempt, lastErr, delays, h => by
      have h0 := h 0 (by omega)
      rw [Nat.add_zero] at h0
      have hshift : ∀ i < fuel,
          transientAns (env.answer (attempt + 1 + i)) = true := by
        intro i hi
        have := h (i + 1) (by omega)
        rwa [show attempt + (i + 1) = attempt + 1 + i by omega] at this
      simp only [fwrAux]
      cases ha : env.answer attempt with
      | threw =>
          dsimp only
          rw [fwrAux_all_transient_delays env base fuel (attempt + 1) true
            (delays ++ [backoffDelay base env attempt]) hshift]
          rw [List.append_assoc, List.singleton_append,
            delayShift (backoffDelay base env) attempt fuel]
      | resp s2 =>
          rw [ha] at h0
          simp only [transientAns, Bool.and_eq_true, Bool.not_eq_true'] at h0
          dsimp only
          rw [if_neg (by simp [h0.1]), if_pos h0.2]
          rw [fwrAux_all_transient_delays env base fuel (attempt + 1) lastErr
            (delays ++ [backoffDelay base env attempt]) hshift]
          rw [List.append_assoc, List.singleton_append,
            delayShift (backoffDelay base env) attempt fuel]

/-- C6: refuted as stated.  HTTP 503 belongs to the claimed transient
class, and fetchWithRetry does retry it, but the per-round fallback loop
moves to an alternate backend only on a network error or a final HTTP
500: here the preferred model persistently answers 503 while the first
fallback model would succeed, yet the round surfaces the 503 as a
terminal error without ever consulting the fallback backend. -/
theorem C6_retry_and_fallback_counterexample :
    selectModel envBackend503 0 ⟨[], true⟩ (fallbackList {})
      = .failed "API error 503: Service Unavailable"
    ∧ envBackend503.fetch 0 "gemini-2.5-flash" ⟨[], true⟩
      = .ok (some ⟨"model", [.text "saved"]⟩) := ⟨rfl, rfl⟩

/-- C6 (amended): within one backend, fetchWithRetry retries exactly the
transient class (network errors and HTTP 500, 503, 504) with bounded
exponential backoff plus jitter and makes at most retries + 2 raw
attempts, while the first non-transient failure is returned immediately
with no further retry; across backends, the per-round loop falls through
to the next model only on a network error or an HTTP 500 — any other
non-ok status, 503 and 504 included, becomes an immediate terminal error
— and an ok response is used as is. -/
theorem C6_retry_and_fallback_amended :
    (∀ (env : RetryEnv) (retries base k s : Nat), k ≤ retries →
       (∀ i < k, transientAns (env.answer i) = true) →
       env.answer k = .resp s → isOkStatus s = false →
       isTransientStatus s = false →
       fetchWithRetry env retries base
         = (.returned s,
            ⟨k + 1, (List.range k).map (backoffDelay base env)⟩))
    ∧ (∀ (env : RetryEnv) (retries base : Nat),
        (∀ i ≤ retries, transientAns (env.answer i) = true) →
        ((fetchWithRetry env retries base).2).delays
          = (List.range (retries + 1)).map (backoffDelay base env))
    ∧ (∀ (env : RetryEnv) (retries base : Nat),
        ((fetchWithRetry env retries base).2).attempts ≤ retries + 2)
    ∧ (∀ (env : LoopEnv) (round : Nat) (body : GenBody) (ms : List String)
         (m : String),
        (env.fetch round m body = .threw →
          selectModel env round body (m :: ms)
            = selectModel env round body ms)
        ∧ (∀ b, env.fetch round m body = .httpResp 500 b →
            selectModel env round body (m :: ms)
              = selectModel env round body ms)
        ∧ (∀ st b, env.fetch round m body = .httpResp st b → st ≠ 500 →
            selectModel env round body (m :: ms)
              = .failed ("API error " ++ toString st ++ ": " ++ b))
        ∧ (∀ c, env.fetch round m body = .ok c →
            selectModel env round body (m :: ms) = .chosen m c)) := by
  refine ⟨?_, ?_, ?_, ?_⟩
  · intro env retries base k s hk htrans hans hok htr
    have := fwrAux_nontransient env base s hok htr k (retries + 1) 0 false []
      (by omega) (by simpa using htrans) (by simpa using hans)
    simpa [fetchWithRetry] using this
  · intro env retries base h
    have := fwrAux_all_transient_delays env base (retries + 1) 0 false []
      (by intro i hi; simpa using h i (by omega))
    simpa [fetchWithRetry] using this
  · intro env retries base
    have := fwrAux_attempts_le env base (retries + 1) 0 false []
    unfold fetchWithRetry
    omega
  · intro env round body ms m
    refine ⟨?_, ?_, ?_, ?_⟩
    · intro h; simp [selectModel, h]
    · intro b h; simp [selectModel, h]
    · intro st b h hne; simp [selectModel, h, hne]
    · intro c h; simp [selectModel, h]

/-- C6 (amended) witness: a first-attempt 400 returns immediately with no
retry; persistent 503 answers with one retry budget produce exactly the
two backoff delays and at most three raw attempts; a post-retry 503 on
the preferred backend surfaces as the terminal error. -/
theorem C6_retry_and_fallback_witness :
    fetchWithRetry retryEnv400 2 700 = (.returned 400, ⟨1, []⟩)
    ∧ ((fetchWithRetry retryEnv503 1 700).2).delays
      = (List.range 2).map (backoffDelay 700 retryEnv503)
    ∧ ((fetchWithRetry retryEnv503 1 700).2).attempts ≤ 3
    ∧ selectModel envBackend503 0 ⟨[], true⟩ ["gemini-2.5-flash-lite"]
      = .failed "API error 503: Service Unavailable" :=
  ⟨by
    have := C6_retry_and_fallback_amended.1 retryEnv400 2 700 0 400
      (by omega) (fun i hi => absurd hi (Nat.not_lt_zero i)) rfl
      (by decide) (by decide)
    simpa using this,
   C6_retry_and_fallback_amended.2.1 retryEnv503 1 700
     (by intro i hi; rfl),
   C6_retry_and_fallback_amended.2.2.1 retryEnv503 1 700,
   by
    have := (C6_retry_and_fallback_amended.2.2.2 envBackend503 0
      ⟨[], true⟩ [] "gemini-2.5-flash-lite").2.2.1 503
      "Service Unavailable" rfl (by decide)
    exact this⟩

/-! Lemmas about redirect unwrapping. -/

theorem googleBranch_none {u : UrlParts} (h : googleMiss u) :
    (if googlePattern u then firstTruthyParam u ["q", "url", "u"]
     else none) = none := by
  rcases h with h | h
  · simp [h]
  · by_cases hg : googlePattern u <;> simp [hg, h]

theorem bingBranch_none {u : UrlParts} (h : bingMiss u) :
    (if bingPattern u then bingParam u else none) = none := by
  rcases h with h | h
  · simp [h]
  · by_cases hb : bingPattern u <;> simp [hb, h]

/-- C8: refuted as stated.  The hostname checks are substring tests, so
the URL https with host evilgoogle.com and path /url — not a Google
redirect — is still unwrapped to its q parameter instead of being
returned unchanged. -/
theorem C8_redirect_unwrap_counterexample :
    decodeGoogleRedirect
        "https://evilgoogle.com/url?q=https%3A%2F%2Fx.com%2F"
      = "https://x.com/"
    ∧ "https://evilgoogle.com/url?q=https%3A%2F%2Fx.com%2F"
      ≠ "https://x.com/" := ⟨by decide, by decide⟩

/-- C8 (amended): redirect unwrapping keys on hostname substrings rather
than exact search-engine hosts.  For any parseable URL whose hostname
contains google. (or equals www.google.com) with path /url, the first
truthy of the q, url, u parameters is returned percent-decoded; for a
hostname containing bing.com with path /aclk or /ck/a, the u parameter;
for a hostname containing duckduckgo.com with a path starting /l, the
uddg parameter decoded a second time, a decoding failure returning the
input unchanged.  A URL matching none of the three patterns, or one that
does not parse as absolute, is returned unchanged. -/
theorem C8_redirect_unwrap_amended :
    (∀ (href : String) (u : UrlParts) (v : String),
       parseAbsUrl href = some u → googlePattern u = true →
       firstTruthyParam u ["q", "url", "u"] = some v →
       decodeGoogleRedirect href = v)
    ∧ (∀ (href : String) (u : UrlParts) (v : String),
        parseAbsUrl href = some u → googleMiss u →
        bingPattern u = true → bingParam u = some v →
        decodeGoogleRedirect href = v)
    ∧ (∀ (href : String) (u : UrlParts) (v : String) (d : List Char),
        parseAbsUrl href = some u → googleMiss u → bingMiss u →
        ddgPattern u = true → getSearchParam u.query "uddg" = some v →
        v ≠ "" → percentDecodeStrict v.toList = some d →
        decodeGoogleRedirect href = String.mk d)
    ∧ (∀ (href : String) (u : UrlParts) (v : String),
        parseAbsUrl href = some u → googleMiss u → bingMiss u →
        ddgPattern u = true → getSearchParam u.query "uddg" = some v →
        v ≠ "" → percentDecodeStrict v.toList = none →
        decodeGoogleRedirect href = href)
    ∧ (∀ href : String, parseAbsUrl href = none →
        decodeGoogleRedirect href = href)
    ∧ (∀ (href : String) (u : UrlParts),
        parseAbsUrl href = some u → googlePattern u = false →
        bingPattern u = false → ddgPattern u = false →
        decodeGoogleRedirect href = href) := by
  refine ⟨?_, ?_, ?_, ?_, ?_, ?_⟩
  · intro href u v hp hg hv
    unfold decodeGoogleRedirect
    rw [hp]
    dsimp only
    rw [hg]
    simp only [if_true]
    rw [hv]
  · intro href u v hp hg hb hbv
    unfold decodeGoogleRedirect
    rw [hp]
    dsimp only
    rw [googleBranch_none hg]
    dsimp only
    rw [hb]
    simp only [if_true]
    rw [hbv]
  · intro href u v d hp hg hb hd hv hne hdec
    unfold decodeGoogleRedirect
    rw [hp]
    dsimp only
    rw [googleBranch_none hg]
    dsimp only
    rw [bingBranch_none hb]
    dsimp only
    rw [hd]
    simp only [if_true]
    rw [hv]
    dsimp only
    rw [if_pos hne, hdec]
  · intro href u v hp hg hb hd hv hne hdec
    unfold decodeGoogleRedirect
    rw [hp]
    dsimp only
    rw [googleBranch_none hg]
    dsimp only
    rw [bingBranch_none hb]
    dsimp only
    rw [hd]
    simp only [if_true]
    rw [hv]
    dsimp only
    rw [if_pos hne, hdec]
  · intro href hp
    unfold decodeGoogleRedirect
    rw [hp]
  · intro href u hp hg hb hd
    unfold decodeGoogleRedirect
    rw [hp]
    dsimp only
    rw [hg, hb, hd]
    simp only [Bool.false_eq_true, if_false]

/-- C8 (amended) witness: a genuine Google redirect is unwrapped to its
percent-decoded q parameter, and a plain documentation URL matching no
redirect pattern is returned unchanged. -/
theorem C8_redirect_unwrap_witness :
    decodeGoogleRedirect
        "https://www.google.com/url?q=https%3A%2F%2Fexample.com%2Fpage"
      = "https://example.com/page"
    ∧ decodeGoogleRedirect "https://example.com/page?x=1"
      = "https://example.com/page?x=1" :=
  ⟨C8_redirect_unwrap_amended.1 _
      ⟨"https", "www.google.com", "/url",
        "q=https%3A%2F%2Fexample.com%2Fpage"⟩ _
      (by decide) (by decide) (by decide),
   C8_redirect_unwrap_amended.2.2.2.2.2 _
      ⟨"https", "example.com", "/page", "x=1"⟩
      (by decide) (by decide) (by decide) (by decide)⟩

/-! Lemmas about the extraction ladder. -/

theorem findFirstLongerNonempty_spec (cands : List String) (cur : String) :
    findFirstLongerNonempty cands cur = cur
    ∨ cur.length < (findFirstLongerNonempty cands cur).length := by
  unfold findFirstLongerNonempty
  cases h : cands.find? (fun t => t ≠ "" && decide (cur.length < t.length))
  case none => exact Or.inl rfl
  case some t =>
    have h2 := List.find?_some h
    simp only [Bool.and_eq_true, decide_eq_true_eq] at h2
    exact Or.inr h2.2

theorem findFirstLonger_spec (cands : List String) (cur : String) :
    findFirstLonger cands cur = cur
    ∨ cur.length < (findFirstLonger cands cur).length := by
  unfold findFirstLonger
  cases h : cands.find? (fun t => decide (cur.length < t.length))
  case none => exact Or.inl rfl
  case some t =>
    have h2 := List.find?_some h
    simp only [decide_eq_true_eq] at h2
    exact Or.inr h2

/-- C9: refuted as stated.  On a page whose aggregation strategy finds 30
characters while the raw body text is longer but made of short
navigation-like lines, the last rung of the content-script ladder
replaces the 30-character running best with the empty filtered body
text: the running best length drops from 30 to 0, so a strategy output
that is not strictly longer does replace the current best. -/
theorem C9_extraction_monotonicity_counterexample :
    ((extractLadderStates envLadder none).getD 4 "").length = 30
    ∧ ((extractLadderStates envLadder none).getD 5 "").length = 0 :=
  ⟨by decide, by decide⟩

/-- C9 (amended): strategies up to the application-root rescue adopt a
candidate only if strictly longer, so the running best length is
non-decreasing through them; the final whole-body fallback instead
adopts the nav-filtered body text whenever the raw body text is strictly
longer than the current best, and that filtered text can be shorter than
the current best. -/
theorem C9_extraction_monotonicity_amended :
    (∀ (env : ExtractEnv) (t : String),
       t.length ≤ (extractStep3 env t).length ∧
       (extractStep3 env t ≠ t → t.length < (extractStep3 env t).length))
    ∧ (∀ (env : ExtractEnv) (t : String),
        t.length ≤ (extractStep4 env t).length ∧
        (extractStep4 env t ≠ t → t.length < (extractStep4 env t).length))
    ∧ (∀ (env : ExtractEnv) (t : String),
        t.length ≤ (extractStep5 env t).length ∧
        (extractStep5 env t ≠ t → t.length < (extractStep5 env t).length))
    ∧ (∀ (env : ExtractEnv) (t : String),
        t.length ≤ (extractStep6 env t).length ∧
        (extractStep6 env t ≠ t → t.length < (extractStep6 env t).length))
    ∧ (∀ (env : ExtractEnv) (t : String), extractStep7 env t ≠ t →
        extractStep7 env t = bodyFilterLines env.bodyText
        ∧ t.length < (trimChars env.bodyText).length) := by
  refine ⟨?_, ?_, ?_, ?_, ?_⟩
  · intro env t
    unfold extractStep3
    split
    · split
      case isTrue h => exact ⟨Nat.le_of_lt h.2, fun _ => h.2⟩
      case isFalse h => exact ⟨Nat.le_refl _, fun hne => absurd rfl hne⟩
    · exact ⟨Nat.le_refl _, fun hne => absurd rfl hne⟩
  · intro env t
    unfold extractStep4
    split
    · rcases findFirstLonger_spec env.dynamicTexts t with h | h
      · rw [h]; exact ⟨Nat.le_refl _, fun hne => absurd rfl hne⟩
      · exact ⟨Nat.le_of_lt h, fun _ => h⟩
    · exact ⟨Nat.le_refl _, fun hne => absurd rfl hne⟩
  · intro env t
    unfold extractStep5
    split
    · split
      case isTrue h => exact ⟨Nat.le_of_lt h, fun _ => h⟩
      case isFalse h => exact ⟨Nat.le_refl _, fun hne => absurd rfl hne⟩
    · exact ⟨Nat.le_refl _, fun hne => absurd rfl hne⟩
  · intro env t
    unfold extractStep6
    split
    · split
      case isTrue h => exact ⟨Nat.le_of_lt h, fun _ => h⟩
      case isFalse h => exact ⟨Nat.le_refl _, fun hne => absurd rfl hne⟩
    · exact ⟨Nat.le_refl _, fun hne => absurd rfl hne⟩
  · intro env t hne
    unfold extractStep7 at hne ⊢
    by_cases hg : t = "" ∨ t.length < 200
    · rw [if_pos hg] at hne ⊢
      by_cases hb : t.length < (trimChars env.bodyText).length
      · rw [if_pos hb]
        exact ⟨rfl, hb⟩
      · rw [if_neg hb] at hne
        exact absurd rfl hne
    · rw [if_neg hg] at hne
      exact absurd rfl hne

/-- C9 (amended) witness: on the counterexample page the aggregation
rung strictly grows the running best from 0 to 30 characters, and the
final body-text rung replaces the 30-character best with the filtered
body text because the raw body is 59 characters long. -/
theorem C9_extraction_monotonicity_witness :
    ("" : String).length
      ≤ (extractStep3 envLadder "").length
    ∧ (extractStep7 envLadder (String.mk (List.replicate 30 'x'))
        = bodyFilterLines envLadder.bodyText
      ∧ (String.mk (List.replicate 30 'x')).length
          < (trimChars envLadder.bodyText).length) :=
  ⟨(C9_extraction_monotonicity_amended.1 envLadder "").1,
   C9_extraction_monotonicity_amended.2.2.2.2 envLadder
     (String.mk (List.replicate 30 'x')) (by decide)⟩

/-! Lemmas about the heap-graph truncation model. -/

theorem nodup_bounded_length {l : List Nat} {n : Nat} (hnd : l.Nodup)
    (hb : ∀ x ∈ l, x < n) : l.length ≤ n := by
  have h1 : l.toFinset ⊆ Finset.range n := by
    intro x hx
    simp only [List.mem_toFinset] at hx
    exact Finset.mem_range.2 (hb x hx)
  have h2 := Finset.card_le_card h1
  rwa [List.toFinset_card_of_nodup hnd, Finset.card_range] at h2

theorem statefulMap_inv {α β : Type}
    (f : List Nat → α → Option (β × List Nat)) (P : List Nat → Prop)
    (hf : ∀ seen x y s', P seen → f seen x = some (y, s') →
      P s' ∧ ∃ new, s' = new ++ seen) :
    ∀ (xs : List α) (seen : List Nat) (ys : List β) (s'' : List Nat),
      P seen → statefulMap f seen xs = some (ys, s'') →
      P s'' ∧ ∃ new, s'' = new ++ seen
  | [], seen, ys, s'', hP, h => by
      simp only [statefulMap, Option.some.injEq, Prod.mk.injEq] at h
      obtain ⟨-, rfl⟩ := h
      exact ⟨hP, [], rfl⟩
  | x :: xs, seen, ys, s'', hP, h => by
      simp only [statefulMap] at h
      cases hfx : f seen x with
      | none => rw [hfx] at h; cases h
      | some p =>
          obtain ⟨y, s1⟩ := p
          rw [hfx] at h
          dsimp only at h
          cases hrest : statefulMap f s1 xs with
          | none => rw [hrest] at h; cases h
          | some q =>
              obtain ⟨ys1, s2⟩ := q
              rw [hrest] at h
              dsimp only at h
              simp only [Option.some.injEq, Prod.mk.injEq] at h
              obtain ⟨-, rfl⟩ := h
              have h1 := hf seen x y s1 hP hfx
              have h2 := statefulMap_inv f P hf xs s1 ys1 s2 h1.1 hrest
              refine ⟨h2.1, ?_⟩
              obtain ⟨n1, hn1⟩ := h1.2
              obtain ⟨n2, hn2⟩ := h2.2
              exact ⟨n2 ++ n1, by rw [hn2, hn1, List.append_assoc]⟩

theorem statefulMap_total {α β : Type}
    (f : List Nat → α → Option (β × List Nat)) (P : List Nat → Prop)
    (Q : α → Prop)
    (hf : ∀ seen x y s', P seen → f seen x = some (y, s') →
      P s' ∧ ∃ new, s' = new ++ seen)
    (ht : ∀ seen x, P seen → Q x → (f seen x).isSome = true) :
    ∀ (xs : List α) (seen : List Nat), P seen → (∀ x ∈ xs, Q x) →
      (statefulMap f seen xs).isSome = true
  | [], seen, _, _ => by simp [statefulMap]
  | x :: xs, seen, hP, hQ => by
      have h1 := ht seen x hP (hQ x (by simp))
      cases hfx : f seen x with
      | none => rw [hfx] at h1; simp at h1
      | some p =>
          obtain ⟨y, s1⟩ := p
          have h2 := hf seen x y s1 hP hfx
          have h3 := statefulMap_total f P Q hf ht xs s1 h2.1
            (fun z hz => hQ z (by simp [hz]))
          simp only [statefulMap, hfx]
          cases hrest : statefulMap f s1 xs with
          | none => rw [hrest] at h3; simp at h3
          | some q => simp

theorem truncH_inv (cfg : TruncCfg) (heap : Heap) :
    ∀ (fuel : Nat) (seen : List Nat) (v : HVal) (j : JVal) (s' : List Nat),
      seen.Nodup → (∀ x ∈ seen, x < heap.length) →
      truncH cfg heap fuel seen v = some (j, s') →
      (s'.Nodup ∧ ∀ x ∈ s', x < heap.length) ∧ ∃ new, s' = new ++ seen := by
  intro fuel
  induction fuel with
  | zero => intro seen v j s' _ _ h; simp [truncH] at h
  | succ fuel ih =>
      intro seen v j s' hnd hb h
      match v with
      | .prim .null =>
          simp only [truncH, Option.some.injEq, Prod.mk.injEq] at h
          obtain ⟨-, rfl⟩ := h
          exact ⟨⟨hnd, hb⟩, [], rfl⟩
      | .prim (.bool b) =>
          simp only [truncH, Option.some.injEq, Prod.mk.injEq] at h
          obtain ⟨-, rfl⟩ := h
          exact ⟨⟨hnd, hb⟩, [], rfl⟩
      | .prim (.num n) =>
          simp only [truncH, Option.some.injEq, Prod.mk.injEq] at h
          obtain ⟨-, rfl⟩ := h
          exact ⟨⟨hnd, hb⟩, [], rfl⟩
      | .prim (.str s) =>
          simp only [truncH, Option.some.injEq, Prod.mk.injEq] at h
          obtain ⟨-, rfl⟩ := h
          exact ⟨⟨hnd, hb⟩, [], rfl⟩
      | .fn =>
          simp only [truncH, Option.some.injEq, Prod.mk.injEq] at h
          obtain ⟨-, rfl⟩ := h
          exact ⟨⟨hnd, hb⟩, [], rfl⟩
      | .ref r =>
          simp only [truncH] at h
          by_cases hr : r ∈ seen
          · rw [if_pos hr] at h
            simp only [Option.some.injEq, Prod.mk.injEq] at h
            obtain ⟨-, rfl⟩ := h
            exact ⟨⟨hnd, hb⟩, [], rfl⟩
          · rw [if_neg hr] at h
            cases hget : heap.get? r with
            | none => rw [hget] at h; cases h
            | some node =>
                rw [hget] at h
                have hrlt : r < heap.length := by
                  by_contra hge
                  rw [List.get?_eq_none.2 (by omega)] at hget
                  cases hget
                have hseen1 : (r :: seen).Nodup := List.nodup_cons.2 ⟨hr, hnd⟩
                have hb1 : ∀ x ∈ r :: seen, x < heap.length := by
                  intro x hx
                  rcases List.mem_cons.1 hx with rfl | hx
                  · exact hrlt
                  · exact hb x hx
                cases node with
                | arrN l =>
                    dsimp only at h
                    cases hsm : statefulMap (truncH cfg heap fuel) (r :: seen)
                        (l.take cfg.maxArray) with
                    | none => rw [hsm] at h; cases h
                    | some q =>
                        obtain ⟨outs, s2⟩ := q
                        rw [hsm] at h
                        dsimp only at h
                        simp only [Option.some.injEq, Prod.mk.injEq] at h
                        obtain ⟨-, rfl⟩ := h
                        have hinv := statefulMap_inv (truncH cfg heap fuel)
                          (fun s => s.Nodup ∧ ∀ x ∈ s, x < heap.length)
                          (fun seen1 x y s1 hP hfx =>
                            ih seen1 x y s1 hP.1 hP.2 hfx)
                          (l.take cfg.maxArray) (r :: seen) outs s2
                          ⟨hseen1, hb1⟩ hsm
                        refine ⟨hinv.1, ?_⟩
                        obtain ⟨new, hnew⟩ := hinv.2
                        exact ⟨new ++ [r], by
                          rw [hnew, List.append_assoc, List.singleton_append]⟩
                | objN kvs =>
                    dsimp only at h
                    cases hsm : statefulMap (fun seen1 (p : String × HVal) =>
                        match truncH cfg heap fuel seen1 p.2 with
                        | none => none
                        | some (j2, seen2) => some ((p.1, j2), seen2))
                        (r :: seen) (kvs.take cfg.maxKeys) with
                    | none => rw [hsm] at h; cases h
                    | some q =>
                        obtain ⟨outs, s2⟩ := q
                        rw [hsm] at h
                        dsimp only at h
                        simp only [Option.some.injEq, Prod.mk.injEq] at h
                        obtain ⟨-, rfl⟩ := h
                        have hinv := statefulMap_inv
                          (fun seen1 (p : String × HVal) =>
                            match truncH cfg heap fuel seen1 p.2 with
                            | none => none
                            | some (j2, seen2) => some ((p.1, j2), seen2))
                          (fun s => s.Nodup ∧ ∀ x ∈ s, x < heap.length)
                          (fun seen1 p y s1 hP hfx => by
                            dsimp only at hfx
                            cases htr : truncH cfg heap fuel seen1 p.2 with
                            | none => rw [htr] at hfx; cases hfx
                            | some q2 =>
                                obtain ⟨j3, s3⟩ := q2
                                rw [htr] at hfx
                                dsimp only at hfx
                                simp only [Option.some.injEq,
                                  Prod.mk.injEq] at hfx
                                obtain ⟨-, rfl⟩ := hfx
                                exact ih seen1 p.2 j3 _ hP.1 hP.2 htr)
                          (kvs.take cfg.maxKeys) (r :: seen) outs s2
                          ⟨hseen1, hb1⟩ hsm
                        refine ⟨hinv.1, ?_⟩
                        obtain ⟨new, hnew⟩ := hinv.2
                        exact ⟨new ++ [r], by
                          rw [hnew, List.append_assoc, List.singleton_append]⟩

theorem truncH_total (cfg : TruncCfg) (heap : Heap)
    (hwf : heapWF heap = true) :
    ∀ (fuel : Nat) (seen : List Nat) (v : HVal),
      hvalWF heap v = true → seen.Nodup →
      (∀ x ∈ seen, x < heap.length) →
      heap.length + 1 ≤ fuel + seen.length →
      (truncH cfg heap fuel seen v).isSome = true := by
  intro fuel
  induction fuel with
  | zero =>
      intro seen v _ hnd hb hfuel
      have := nodup_bounded_length hnd hb
      exact absurd hfuel (by omega)
  | succ fuel ih =>
      intro seen v hv hnd hb hfuel
      match v with
      | .prim .null => simp [truncH]
      | .prim (.bool b) => simp [truncH]
      | .prim (.num n) => simp [truncH]
      | .prim (.str s) => simp [truncH]
      | .fn => simp [truncH]
      | .ref r =>
          by_cases hr : r ∈ seen
          · simp [truncH, hr]
          · have hrlt : r < heap.length := by
              simpa [hvalWF] using hv
            have hget := List.get?_eq_get hrlt
            have hmem : heap.get ⟨r, hrlt⟩ ∈ heap := List.get_mem heap r hrlt
            have hnodeWF := List.all_eq_true.1 hwf _ hmem
            have hseen1 : (r :: seen).Nodup := List.nodup_cons.2 ⟨hr, hnd⟩
            have hb1 : ∀ x ∈ r :: seen, x < heap.length := by
              intro x hx
              rcases List.mem_cons.1 hx with rfl | hx
              · exact hrlt
              · exact hb x hx
            have hfuel1 : heap.length + 1 ≤ fuel + (r :: seen).length := by
              simp only [List.length_cons]
              omega
            simp only [truncH, if_neg hr, hget]
            cases hnode : heap.get ⟨r, hrlt⟩ with
            | arrN l =>
                rw [hnode] at hnodeWF
                dsimp only at hnodeWF
                have hQ : ∀ x ∈ l.take cfg.maxArray, hvalWF heap x = true :=
                  fun x hx => List.all_eq_true.1 hnodeWF x
                    (List.take_subset _ _ hx)
                have htot := statefulMap_total (truncH cfg heap fuel)
                  (fun s => s.Nodup ∧ (∀ x ∈ s, x < heap.length) ∧
                    heap.length + 1 ≤ fuel + s.length)
                  (fun x => hvalWF heap x = true)
                  (fun seen1 x y s1 hP hfx => by
                    have h1 := truncH_inv cfg heap fuel seen1 x y s1
                      hP.1 hP.2.1 hfx
                    refine ⟨⟨h1.1.1, h1.1.2, ?_⟩, h1.2⟩
                    obtain ⟨new, hnew⟩ := h1.2
                    have : seen1.length ≤ s1.length := by
                      rw [hnew, List.length_append]
                      omega
                    omega)
                  (fun seen1 x hP hQx => ih seen1 x hQx hP.1 hP.2.1 hP.2.2)
                  (l.take cfg.maxArray) (r :: seen) ⟨hseen1, hb1, hfuel1⟩ hQ
                dsimp only
                cases hsm : statefulMap (truncH cfg heap fuel) (r :: seen)
                    (l.take cfg.maxArray) with
                | none => rw [hsm] at htot; simp at htot
                | some q => obtain ⟨outs, s2⟩ := q; simp
            | objN kvs =>
                rw [hnode] at hnodeWF
                dsimp only at hnodeWF
                have hQ : ∀ p ∈ kvs.take cfg.maxKeys,
                    hvalWF heap p.2 = true :=
                  fun p hp => List.all_eq_true.1 hnodeWF p
                    (List.take_subset _ _ hp)
                have htot := statefulMap_total
                  (fun seen1 (p : String × HVal) =>
                    match truncH cfg heap fuel seen1 p.2 with
                    | none => none
                    | some (j2, seen2) => some ((p.1, j2), seen2))
                  (fun s => s.Nodup ∧ (∀ x ∈ s, x < heap.length) ∧
                    heap.length + 1 ≤ fuel + s.length)
                  (fun p => hvalWF heap p.2 = true)
                  (fun seen1 p y s1 hP hfx => by
                    dsimp only at hfx
                    cases htr : truncH cfg heap fuel seen1 p.2 with
                    | none => rw [htr] at hfx; cases hfx
                    | some q2 =>
                        obtain ⟨j3, s3⟩ := q2
                        rw [htr] at hfx
                        dsimp only at hfx
                        simp only [Option.some.injEq, Prod.mk.injEq] at hfx
                        obtain ⟨-, rfl⟩ := hfx
                        have h1 := truncH_inv cfg heap fuel seen1 p.2 j3 s3
                          hP.1 hP.2.1 htr
                        refine ⟨⟨h1.1.1, h1.1.2, ?_⟩, h1.2⟩
                        obtain ⟨new, hnew⟩ := h1.2
                        have : seen1.length ≤ s3.length := by
                          rw [hnew, List.length_append]
                          omega
                        omega)
                  (fun seen1 p hP hQp => by
                    have := ih seen1 p.2 hQp hP.1 hP.2.1 hP.2.2
                    cases htr : truncH cfg heap fuel seen1 p.2 with
                    | none => rw [htr] at this; simp at this
                    | some q2 => obtain ⟨j3, s3⟩ := q2; simp [htr])
                  (kvs.take cfg.maxKeys) (r :: seen) ⟨hseen1, hb1, hfuel1⟩ hQ
                dsimp only
                cases hsm : statefulMap (fun seen1 (p : String × HVal) =>
                    match truncH cfg heap fuel seen1 p.2 with
                    | none => none
                    | some (j2, seen2) => some ((p.1, j2), seen2))
                    (r :: seen) (kvs.take cfg.maxKeys) with
                | none => rw [hsm] at htot; simp at htot
                | some q => obtain ⟨outs, s2⟩ := q; simp

/-- C10: truncateDeep is total on arbitrary JavaScript object graphs:
on every well-formed heap (all references point at existing nodes, as
is automatic at runtime) the traversal with fuel heap.length + 1 — a
bound its visited set guarantees is never exhausted — returns a value
rather than failing, every reference encountered a second time during
the traversal (cycles and shared references alike) is replaced by the
circular placeholder string, and every function value is replaced by
the function placeholder string. -/
theorem C10_truncateDeep_total_on_graphs :
    (∀ (cfg : TruncCfg) (heap : Heap) (v : HVal),
       heapWF heap = true → hvalWF heap v = true →
       (truncH cfg heap (heap.length + 1) [] v).isSome = true)
    ∧ (∀ (cfg : TruncCfg) (heap : Heap) (fuel : Nat) (seen : List Nat)
         (r : Nat), r ∈ seen →
        truncH cfg heap (fuel + 1) seen (.ref r)
          = some (.str "[circular]", seen))
    ∧ (∀ (cfg : TruncCfg) (heap : Heap) (fuel : Nat) (seen : List Nat),
        truncH cfg heap (fuel + 1) seen .fn
          = some (.str "[function]", seen)) := by
  refine ⟨?_, ?_, ?_⟩
  · intro cfg heap v hwf hv
    exact truncH_total cfg heap hwf (heap.length + 1) [] v hv
      (by simp) (by simp) (by simp)
  · intro cfg heap fuel seen r hr
    simp [truncH, hr]
  · intro cfg heap fuel seen
    simp [truncH]

/-- C10 witness: on the one-node self-referential heap the traversal
with fuel two succeeds, the second encounter of the node yields the
circular placeholder, and a function value yields the function
placeholder. -/
theorem C10_truncateDeep_total_witness :
    (truncH {} heapCycle (heapCycle.length + 1) [] (.ref 0)).isSome = true
    ∧ truncH {} heapCycle 3 [0] (.ref 0) = some (.str "[circular]", [0])
    ∧ truncH {} heapCycle 3 [] .fn = some (.str "[function]", []) :=
  ⟨C10_truncateDeep_total_on_graphs.1 {} heapCycle (.ref 0)
      (by decide) (by decide),
   C10_truncateDeep_total_on_graphs.2.1 {} heapCycle 2 [0] 0 (by decide),
   C10_truncateDeep_total_on_graphs.2.2 {} heapCycle 2 []⟩

/-! Lemmas about the session driver loop. -/

theorem firstFinal_eq_none_iff (env : LoopEnv) (body : GenBody) :
    ∀ ms : List String, firstFinal env body ms = none ↔
      ∀ m ∈ ms, env.finalFetch m body = none
  | [] => by simp [firstFinal]
  | m :: ms => by
      simp only [firstFinal]
      cases h : env.finalFetch m body with
      | some c =>
          dsimp only
          constructor
          · intro h2; cases h2
          · intro hall
            have h3 := hall m (List.mem_cons_self m ms)
            rw [h] at h3
            cases h3
      | none =>
          dsimp only
          rw [firstFinal_eq_none_iff env body ms]
          constructor
          · intro hall m2 hm2
            rcases List.mem_cons.1 hm2 with rfl | hm2
            · exact h
            · exact hall m2 hm2
          · intro hall m2 hm2
            exact hall m2 (List.mem_cons_of_mem _ hm2)

theorem fallbackList_head (cfg : LoopConfig) :
    fallbackList cfg = cfg.preferred ::
      dedupFirstAux [cfg.preferred] ["gemini-2.5-flash", "gemini-1.5-flash"] := by
  simp [fallbackList, dedupFirst, dedupFirstAux]

theorem selectModel_first_ok {env : LoopEnv} {round : Nat} {body : GenBody}
    {ms : List String} {m : String} {c : Option Content}
    (h : env.fetch round m body = .ok c) :
    selectModel env round body (m :: ms) = .chosen m c := by
  simp [selectModel, h]

theorem afterRepeatCheck_stats_toolRounds (cfg : LoopConfig) (env : LoopEnv)
    (round : Nat) (st : LoopState) (stats : RunStats) (cand : Option Content)
    (calls : List ToolCall) :
    (afterRepeatCheck cfg env round st stats cand calls).stats.toolRounds
      ≤ stats.toolRounds + 1 := by
  unfold afterRepeatCheck
  split
  · simp [RoundOut.stats]
  · dsimp only
    split
    · simp [RoundOut.stats]
    · simp [RoundOut.stats]

theorem afterRepeatCheck_stats_forced (cfg : LoopConfig) (env : LoopEnv)
    (round : Nat) (st : LoopState) (stats : RunStats) (cand : Option Content)
    (calls : List ToolCall) :
    (afterRepeatCheck cfg env round st stats cand calls).stats.forcedRounds
      = stats.forcedRounds
    ∧ (afterRepeatCheck cfg env round st stats cand
        calls).stats.forcedBodies = stats.forcedBodies := by
  unfold afterRepeatCheck
  split
  · simp [RoundOut.stats]
  · dsimp only
    split
    · simp [RoundOut.stats]
    · simp [RoundOut.stats]

theorem roundStep_stats_toolRounds (cfg : LoopConfig) (env : LoopEnv)
    (round : Nat) (st : LoopState) (stats : RunStats) :
    (roundStep cfg env round st stats).stats.toolRounds
      ≤ stats.toolRounds + 1 := by
  unfold roundStep
  dsimp only
  split
  · simp [RoundOut.stats]
  · simp [RoundOut.stats]
  · split
    · split
      · simp [RoundOut.stats]
      · refine le_trans
          (afterRepeatCheck_stats_toolRounds cfg env round _ _ _ _) ?_
        simp
    · exact afterRepeatCheck_stats_toolRounds cfg env round _ stats _ _

theorem loopAux_toolRounds (cfg : LoopConfig) (env : LoopEnv) :
    ∀ (fuel round : Nat) (st : LoopState) (stats : RunStats),
      ((loopAux cfg env fuel round st stats).2).toolRounds
        ≤ stats.toolRounds + fuel
  | 0, round, st, stats => by
      simp only [loopAux, finalPhase]
      cases hff : firstFinal env ⟨st.contents, false⟩ (fallbackList cfg) with
      | some c => simp
      | none => simp
  | fuel + 1, round, st, stats => by
      simp only [loopAux]
      cases hrs : roundStep cfg env round st stats with
      | finished r s =>
          have h := roundStep_stats_toolRounds cfg env round st stats
          rw [hrs] at h
          simp only [RoundOut.stats] at h
          dsimp only
          omega
      | nextRound st' s =>
          have h1 := roundStep_stats_toolRounds cfg env round st stats
          rw [hrs] at h1
          simp only [RoundOut.stats] at h1
          have h2 := loopAux_toolRounds cfg env fuel (round + 1) st' s
          dsimp only
          omega

theorem afterRepeatCheck_progress (cfg : LoopConfig) (env : LoopEnv)
    (round : Nat) (st : LoopState) (stats : RunStats) (cand : Option Content)
    (calls : List ToolCall) (hne : calls ≠ [])
    (happ : cfg.autoApprove = true ∨ env.approval round = some true) :
    ∃ st' s, afterRepeatCheck cfg env round st stats cand calls
      = .nextRound st' s := by
  unfold afterRepeatCheck
  rw [if_neg (by simpa [List.length_eq_zero] using hne)]
  have happr : (requestToolApproval cfg env round).1 = true := by
    unfold requestToolApproval
    rcases happ with h | h
    · simp [h]
    · by_cases hauto : cfg.autoApprove <;> simp [hauto, h]
  dsimp only
  rw [happr]
  simp only [Bool.true_eq_false, if_false]
  exact ⟨_, _, rfl⟩

theorem roundStep_progress (cfg : LoopConfig) (env : LoopEnv) (round : Nat)
    (st : LoopState) (stats : RunStats)
    (hcalls : alwaysToolCalls cfg env) (happ : approvalGranted cfg env) :
    (∃ t s, roundStep cfg env round st stats = .finished (.answer t) s)
    ∨ (∃ st' s, roundStep cfg env round st stats = .nextRound st' s) := by
  obtain ⟨c, hc, hne⟩ := hcalls round
    ⟨compressIfNeeded env.summaryOracle st.contents 10000, true⟩
  unfold roundStep
  rw [fallbackList_head cfg]
  dsimp only
  rw [selectModel_first_ok hc]
  dsimp only
  split
  · cases hff : firstForced env round
        ⟨compressIfNeeded env.summaryOracle st.contents 10000 ++
          [(some c).getD ⟨"model", []⟩, stopToolsContent], false⟩
        (cfg.preferred ::
          dedupFirstAux [cfg.preferred]
            ["gemini-2.5-flash", "gemini-1.5-flash"]) with
    | some c2 => exact Or.inl ⟨_, _, rfl⟩
    | none =>
        right
        exact afterRepeatCheck_progress cfg env round _ _ (some c)
          (getFunctionCalls (some c)) hne (happ round)
  · right
    exact afterRepeatCheck_progress cfg env round _ _ (some c)
      (getFunctionCalls (some c)) hne (happ round)

theorem loopAux_failure (cfg : LoopConfig) (env : LoopEnv)
    (hcalls : alwaysToolCalls cfg env) (happ : approvalGranted cfg env) :
    ∀ (fuel round : Nat) (st : LoopState) (stats : RunStats) (e : String),
      (loopAux cfg env fuel round st stats).1 = .failure e →
      e = exceededError ∧
        ∃ cs, ((loopAux cfg env fuel round st stats).2).finalContents
            = some cs
          ∧ ∀ m ∈ fallbackList cfg, env.finalFetch m ⟨cs, false⟩ = none
  | 0, round, st, stats, e, h => by
      simp only [loopAux, finalPhase] at h ⊢
      cases hff : firstFinal env ⟨st.contents, false⟩ (fallbackList cfg) with
      | some c => rw [hff] at h; cases h
      | none =>
          rw [hff] at h
          dsimp only at h
          injection h with he
          refine ⟨he.symm, st.contents, by simp, ?_⟩
          exact (firstFinal_eq_none_iff env ⟨st.contents, false⟩
            (fallbackList cfg)).1 hff
  | fuel + 1, round, st, stats, e, h => by
      simp only [loopAux] at h ⊢
      rcases roundStep_progress cfg env round st stats hcalls happ with
        ⟨t, s, hrs⟩ | ⟨st', s, hrs⟩
      · rw [hrs] at h
        cases h
      · rw [hrs] at h ⊢
        exact loopAux_failure cfg env hcalls happ fuel (round + 1) st' s e h

/-- C1: the driver performs at most maxToolRounds tool-executing rounds
on any run; and when the backend requests tool calls on every round and
approval never blocks, a session can only end in an error by exhausting
the rounds, making the one final model call with no tool declarations
attached on the accumulated contents, and having it fail on every
backend of the fallback list. -/
theorem C1_round_budget :
    (∀ (cfg : LoopConfig) (env : LoopEnv) (messages : List ChatMessage)
       (tabId : Int),
       ((generateWithToolsLoop cfg env messages tabId).2).toolRounds
         ≤ cfg.maxToolRounds)
    ∧ (∀ (cfg : LoopConfig) (env : LoopEnv) (messages : List ChatMessage)
         (tabId : Int) (e : String),
        alwaysToolCalls cfg env → approvalGranted cfg env →
        (generateWithToolsLoop cfg env messages tabId).1 = .failure e →
        e = exceededError ∧
          ∃ cs, ((generateWithToolsLoop cfg env messages
              tabId).2).finalContents = some cs
            ∧ ∀ m ∈ fallbackList cfg,
                env.finalFetch m ⟨cs, false⟩ = none) := by
  constructor
  · intro cfg env messages tabId
    have h := loopAux_toolRounds cfg env cfg.maxToolRounds 0
      ⟨buildContents messages, none, 0, tabId⟩ RunStats.init
    simpa [generateWithToolsLoop, RunStats.init] using h
  · intro cfg env messages tabId e hcalls happ h
    exact loopAux_failure cfg env hcalls happ cfg.maxToolRounds 0
      ⟨buildContents messages, none, 0, tabId⟩ RunStats.init e h

/-- C1 witness: with one round, a backend that always requests a tool
call and never answers the final no-tools call, the run executes at
most one tool round and ends with the exceeded-rounds error only
because the final call failed on every backend. -/
theorem C1_round_budget_witness :
    ((generateWithToolsLoop cfgOneRound envAlways [] 1).2).toolRounds ≤ 1
    ∧ (exceededError = exceededError
      ∧ ∃ cs, ((generateWithToolsLoop cfgOneRound envAlways
            [] 1).2).finalContents = some cs
          ∧ ∀ m ∈ fallbackList cfgOneRound,
              envAlways.finalFetch m ⟨cs, false⟩ = none) :=
  ⟨C1_round_budget.1 cfgOneRound envAlways [] 1,
   C1_round_budget.2 cfgOneRound envAlways [] 1 exceededError
     (fun _ _ => ⟨candPlain, rfl, by simp [getFunctionCalls, candPlain]⟩)
     (fun _ => Or.inl rfl)
     rfl⟩

theorem getLast?_append_two {α : Type} (l : List α) (a b : α) :
    (l ++ [a, b]).getLast? = some b := by
  have h : l ++ [a, b] = (l ++ [a]) ++ [b] := by simp
  rw [h, List.getLast?_concat]

/-- C2: across consecutive rounds, a non-empty call set whose signature
equals the stored one increments the repeat counter, while a differing
signature resets the counter to zero and stores the new signature; the
threshold is 4 when some requested call is a recognised workflow tool
and 2 otherwise; and within a round the driver issues the forced
no-tools model call — tool catalog detached and the stop-calling-tools
instruction appended as the last content entry — exactly when the
updated counter reaches the threshold. -/
theorem C2_loop_detection :
    (∀ (calls : List ToolCall) (lastSig : Option String) (rc : Nat),
       calls ≠ [] → lastSig = some (callSignature calls) →
       updateRepeat calls lastSig rc = (rc + 1, lastSig))
    ∧ (∀ (calls : List ToolCall) (lastSig : Option String) (rc : Nat),
        lastSig ≠ some (callSignature calls) →
        updateRepeat calls lastSig rc = (0, some (callSignature calls)))
    ∧ (∀ calls : List ToolCall, isLegitimateWorkflow calls = true →
        repeatThreshold calls = 4)
    ∧ (∀ calls : List ToolCall, isLegitimateWorkflow calls = false →
        repeatThreshold calls = 2)
    ∧ (∀ (cfg : LoopConfig) (env : LoopEnv) (round : Nat) (st : LoopState)
         (m : String) (cand : Option Content),
        selectModel env round
            ⟨compressIfNeeded env.summaryOracle st.contents 10000, true⟩
            (fallbackList cfg) = .chosen m cand →
        ((roundStep cfg env round st
            RunStats.init).stats.forcedRounds = [round]
          ↔ (updateRepeat (getFunctionCalls cand) st.lastSig
              st.repeatCount).1 ≥ repeatThreshold (getFunctionCalls cand)))
    ∧ (∀ (cfg : LoopConfig) (env : LoopEnv) (round : Nat) (st : LoopState)
         (m : String) (cand : Option Content),
        selectModel env round
            ⟨compressIfNeeded env.summaryOracle st.contents 10000, true⟩
            (fallbackList cfg) = .chosen m cand →
        (updateRepeat (getFunctionCalls cand) st.lastSig
            st.repeatCount).1 ≥ repeatThreshold (getFunctionCalls cand) →
        ∃ b, (roundStep cfg env round st
            RunStats.init).stats.forcedBodies = [b]
          ∧ b.withTools = false
          ∧ b.contents.getLast? = some stopToolsContent) := by
  refine ⟨?_, ?_, ?_, ?_, ?_, ?_⟩
  · intro calls lastSig rc hne hsig
    unfold updateRepeat
    rw [if_pos ⟨List.length_pos.2 hne, hsig⟩]
  · intro calls lastSig rc hne
    unfold updateRepeat
    rw [if_neg (fun h => hne h.2)]
  · intro calls h
    simp [repeatThreshold, h]
  · intro calls h
    simp [repeatThreshold, h]
  · intro cfg env round st m cand hsel
    unfold roundStep
    dsimp only
    rw [hsel]
    dsimp only
    by_cases hth : (updateRepeat (getFunctionCalls cand) st.lastSig
        st.repeatCount).1 ≥ repeatThreshold (getFunctionCalls cand)
    · rw [if_pos hth]
      split
      · simp [RoundOut.stats, RunStats.init, hth]
      · rw [(afterRepeatCheck_stats_forced cfg env round _ _ _ _).1]
        simp [RunStats.init, hth]
    · rw [if_neg hth]
      rw [(afterRepeatCheck_stats_forced cfg env round _ _ _ _).1]
      simp [RunStats.init, hth]
  · intro cfg env round st m cand hsel hth
    unfold roundStep
    dsimp only
    rw [hsel]
    dsimp only
    rw [if_pos hth]
    refine ⟨⟨compressIfNeeded env.summaryOracle st.contents 10000 ++
        [cand.getD ⟨"model", []⟩, stopToolsContent], false⟩, ?_, rfl, ?_⟩
    · split
      · simp [RoundOut.stats, RunStats.init]
      · rw [(afterRepeatCheck_stats_forced cfg env round _ _ _ _).2]
        simp [RunStats.init]
    · exact getLast?_append_two _ _ _

/-- C2 witness: a workflow call set repeated with the stored signature
moves the counter from 3 to 4, reaching the workflow threshold, and
the concrete round then records exactly one forced no-tools call whose
body ends with the stop instruction. -/
theorem C2_loop_detection_witness :
    updateRepeat (getFunctionCalls (some candSearch))
        (some (callSignature (getFunctionCalls (some candSearch)))) 3
      = (4, some (callSignature (getFunctionCalls (some candSearch))))
    ∧ ((roundStep cfgOneRound envSearchLoop 0 stRepeated
          RunStats.init).stats.forcedRounds = [0]
        ↔ (updateRepeat (getFunctionCalls (some candSearch))
            stRepeated.lastSig stRepeated.repeatCount).1
          ≥ repeatThreshold (getFunctionCalls (some candSearch)))
    ∧ ∃ b, (roundStep cfgOneRound envSearchLoop 0 stRepeated
          RunStats.init).stats.forcedBodies = [b]
        ∧ b.withTools = false
        ∧ b.contents.getLast? = some stopToolsContent :=
  ⟨C2_loop_detection.1 _ _ 3
      (by simp [getFunctionCalls, candSearch]) rfl,
   C2_loop_detection.2.2.2.2.1 cfgOneRound envSearchLoop 0 stRepeated
     "gemini-2.5-flash-lite" (some candSearch) rfl,
   C2_loop_detection.2.2.2.2.2 cfgOneRound envSearchLoop 0 stRepeated
     "gemini-2.5-flash-lite" (some candSearch) rfl (by decide)⟩

/-- C7: with auto-approve enabled the approval gate returns true
immediately and presents nothing; with it disabled, a missing user
reply (the bounded wait timing out) fails closed exactly like an
explicit decline, and in a round whose backend answered with a
non-empty call set below the repeat threshold either outcome makes the
round finish with the declined error while the instrumentation record
is returned unchanged — in particular no requested tool executes. -/
theorem C7_approval_gate :
    (∀ (cfg : LoopConfig) (env : LoopEnv) (round : Nat),
       cfg.autoApprove = true →
       requestToolApproval cfg env round = (true, false))
    ∧ (∀ (cfg : LoopConfig) (env : LoopEnv) (round : Nat),
        cfg.autoApprove = false → env.approval round = none →
        requestToolApproval cfg env round = (false, true))
    ∧ (∀ (cfg : LoopConfig) (env : LoopEnv) (round : Nat),
        cfg.autoApprove = false → env.approval round = some false →
        requestToolApproval cfg env round = (false, true))
    ∧ (∀ (cfg : LoopConfig) (env : LoopEnv) (round : Nat) (st : LoopState)
         (stats : RunStats) (m : String) (cand : Option Content),
        cfg.autoApprove = false →
        (env.approval round = some false ∨ env.approval round = none) →
        selectModel env round
            ⟨compressIfNeeded env.summaryOracle st.contents 10000, true⟩
            (fallbackList cfg) = .chosen m cand →
        getFunctionCalls cand ≠ [] →
        (updateRepeat (getFunctionCalls cand) st.lastSig
            st.repeatCount).1 < repeatThreshold (getFunctionCalls cand) →
        roundStep cfg env round st stats
          = .finished (.failure declinedError) stats) := by
  refine ⟨?_, ?_, ?_, ?_⟩
  · intro cfg env round h
    simp [requestToolApproval, h]
  · intro cfg env round h1 h2
    simp [requestToolApproval, h1, h2]
  · intro cfg env round h1 h2
    simp [requestToolApproval, h1, h2]
  · intro cfg env round st stats m cand hauto hdec hsel hne hth
    unfold roundStep
    dsimp only
    rw [hsel]
    dsimp only
    rw [if_neg (by omega)]
    unfold afterRepeatCheck
    rw [if_neg (by simpa [List.length_eq_zero] using hne)]
    have happr : (requestToolApproval cfg env round).1 = false := by
      unfold requestToolApproval
      rcases hdec with h | h <;> simp [hauto, h]
    dsimp only
    rw [happr]
    simp

/-- C7 witness: with auto-approve off and no user reply, the gate fails
closed, and a concrete fresh round with one requested non-workflow call
ends with the declined error and untouched instrumentation. -/
theorem C7_approval_gate_witness :
    requestToolApproval cfgManual envAlways 0 = (false, true)
    ∧ roundStep cfgManual envAlways 0 stFresh RunStats.init
        = .finished (.failure declinedError) RunStats.init :=
  ⟨C7_approval_gate.2.1 cfgManual envAlways 0 rfl rfl,
   C7_approval_gate.2.2.2 cfgManual envAlways 0 stFresh RunStats.init
     "gemini-2.5-flash-lite" (some candPlain) rfl (Or.inr rfl) rfl
     (by simp [getFunctionCalls, candPlain]) (by decide)⟩

end ApxLens
